import Mathlib

/-!
Verification development for the kosik typesetting engine.

The definitions below are shallow embeddings of the Rust sources:
  * `src/text/tokens.rs` — the token model;
  * `src/text.rs`        — lines, segments, and the three line breakers;
  * `src/document.rs`    — blocks, pages, line counting;
  * `src/document/compositor.rs` — the page compositor.

Machine integers (`usize`, `i32`) are modelled as `Nat` / `Int`; places
where the Rust code can fail at runtime (division by zero, unsigned
underflow) additionally get `..._chk` variants returning `Option`, with
`none` at exactly the failing operations.
-/

set_option maxHeartbeats 1000000

namespace Kosik

-- ======================================================================
-- Configuration constants (src/document.rs lines 54-78)
-- ======================================================================

/-- Default indent in spaces (`INDENT`). -/
def INDENT : Nat := 5

/-- Left margin in spaces (`LEFT_MARGIN`). -/
def LEFT_MARGIN : Nat := 10

/-- Right margin in spaces (`RIGHT_MARGIN`). -/
def RIGHT_MARGIN : Nat := 74

/-- Line number of the top line (`TOP_LINE`). -/
def TOP_LINE : Nat := 59

/-- Line number of the bottom line (`BOTTOM_LINE`). -/
def BOTTOM_LINE : Nat := 6

/-- Number of lines to skip after a chapter title (`CHAPTER_SKIP`). -/
def CHAPTER_SKIP : Nat := 11

-- ======================================================================
-- Token model (src/text/tokens.rs)
-- ======================================================================

/-- The variants of `TokenType` (tokens.rs lines 67-77). -/
inductive TokenKind where
  | Close
  | LineBreak
  | NoteRef
  | Open
  | Punct
  | Space
  | Symbol
  | Word
deriving DecidableEq

/-- `DisplayFlags` bitflags (tokens.rs lines 180-191): EM, SUB, SUP. -/
structure DisplayFlags where
  em : Bool
  sub : Bool
  sup : Bool
deriving DecidableEq

instance : Inhabited DisplayFlags := ⟨⟨false, false, false⟩⟩

/-- `FormatFlags` bitflags (tokens.rs lines 199-212): FS, DLB, MLB, DOB. -/
structure FormatFlags where
  fs : Bool
  dlb : Bool
  mlb : Bool
  dob : Bool
deriving DecidableEq

instance : Inhabited FormatFlags := ⟨⟨false, false, false, false⟩⟩

/-- A token: the variant tag, its stored text (empty for `LineBreak`,
which stores none), display flags and format flags.  Each Rust variant
wraps a `Token<Data>` holding `data.text`, `dpy`, `frm`; this embedding
flattens that representation. -/
structure Token where
  kind : TokenKind
  text : String
  dpy : DisplayFlags
  frm : FormatFlags
deriving DecidableEq

/-- `TokenType::length` (tokens.rs lines 91-102): character count of the
stored text, and 0 for `LineBreak`. -/
def Token.length (t : Token) : Nat :=
  match t.kind with
  | TokenKind.LineBreak => 0
  | _ => t.text.length

/-- `TokenType::text` (tokens.rs lines 115-126): the stored text, and the
empty string for `LineBreak`. -/
def tokenText (t : Token) : String :=
  match t.kind with
  | TokenKind.LineBreak => ""
  | _ => t.text

/-- `TokenType::display_flags` (tokens.rs lines 139-150). -/
def Token.display_flags (t : Token) : DisplayFlags := t.dpy

/-- `TokenType::format_flags` (tokens.rs lines 163-174). -/
def Token.format_flags (t : Token) : FormatFlags := t.frm

/-- Total character length of a token list; this is the fold
`tokens.iter().fold(0, |sum, token| sum + token.length())` used by
`linebreak_balance` (text.rs line 432). -/
def sumLen (ts : List Token) : Nat := (ts.map Token.length).sum

-- ======================================================================
-- Segments and lines (src/text.rs)
-- ======================================================================

/-- A line segment (text.rs lines 70-75): plain text plus the
pre-rendered Postscript command. -/
structure Segment where
  text : String
  ps : String
deriving DecidableEq

/-- The three sequential regex replacements applied by
`From<String> for Segment` (text.rs lines 88-101): escape backslash,
then open paren, then close paren. -/
def psEscapeString (s : String) : String :=
  ((s.replace ("\\") ("\\\\")).replace ("(") ("\\(")).replace (")") ("\\)")

/-- `Segment::from(String)` / `Segment::from(&str)` (text.rs lines 88-116). -/
def Segment.fromString (s : String) : Segment :=
  { text := s, ps := "(" ++ psEscapeString s ++ ") show " }

/-- A line of output (text.rs lines 43-51). -/
structure Line where
  column : Nat
  segments : List Segment
  note_refs : List String
deriving DecidableEq

/-- `Line::length` (text.rs lines 55-57): the total number of characters
in the line, summed over segments. -/
def Line.length (l : Line) : Nat :=
  (l.segments.map (fun s => s.text.length)).sum

/-- The slice `&tokens[i..j]` of a token list. -/
def slice (tokens : List Token) (i j : Nat) : List Token :=
  (tokens.drop i).take (j - i)

/-- Per-token Postscript text with the escaping performed by
`Segment::from(&[TokenType])` (text.rs lines 237-287): `Close` escapes
a close paren, `Open` an open paren, `Symbol` a backslash; `LineBreak`
contributes nothing. -/
def psTokenText (t : Token) : String :=
  match t.kind with
  | TokenKind.LineBreak => ""
  | TokenKind.Close => if t.text = ")" then "\\)" else t.text
  | TokenKind.Open => if t.text = "(" then "\\(" else t.text
  | TokenKind.Symbol => if t.text = "\\" then "\\\\" else t.text
  | _ => t.text

/-- `Segment::from(&[TokenType])` (text.rs lines 216-310): concatenates
the token texts and produces the Postscript command, with sub/sup
`rmoveto` wrappers and `ushow` for emphasis. -/
def segmentOfTokens (ts : List Token) : Segment :=
  let dpy := match ts.head? with
    | some t => t.dpy
    | none => default
  let text := String.join (ts.map tokenText)
  let body := String.join (ts.map psTokenText)
  let pre := if dpy.sub then "0 -6 rmoveto " else if dpy.sup then "0 6 rmoveto " else ""
  let post1 := if dpy.em then "ushow " else "show "
  let post2 := if dpy.sub then "0 6 rmoveto " else if dpy.sup then "0 -6 rmoveto " else ""
  { text := text, ps := pre ++ "(" ++ body ++ ") " ++ post1 ++ post2 }

/-- The display-state-change scan of `Line::from(&[TokenType])`
(text.rs lines 144-192): walking the tokens from index `i` with current
display state `dpy`, collect the indices where the state changes
(`LineBreak` tokens are skipped) and the note-reference labels in
order. -/
def scLoop (dpy : DisplayFlags) (i : Nat) : List Token → List Nat × List String
  | [] => ([], [])
  | t :: rest =>
    match t.kind with
    | TokenKind.LineBreak => scLoop dpy (i + 1) rest
    | TokenKind.NoteRef =>
      if t.dpy ≠ dpy then
        let r := scLoop t.dpy (i + 1) rest
        (i :: r.1, t.text :: r.2)
      else
        let r := scLoop dpy (i + 1) rest
        (r.1, t.text :: r.2)
    | _ =>
      if t.dpy ≠ dpy then
        let r := scLoop t.dpy (i + 1) rest
        (i :: r.1, r.2)
      else
        scLoop dpy (i + 1) rest

/-- The windows-of-2 loop of `Line::from(&[TokenType])` (text.rs lines
196-205): cut the token list at the recorded state changes, skipping
empty ranges. -/
def segsOfCuts (tokens : List Token) : List Nat → List Segment
  | i :: j :: rest =>
    if j - i > 0 then segmentOfTokens (slice tokens i j) :: segsOfCuts tokens (j :: rest)
    else segsOfCuts tokens (j :: rest)
  | _ => []

/-- `Line::from(&[TokenType])` (text.rs lines 131-213). -/
def lineFromTokens (tokens : List Token) : Line :=
  let dpy0 := match tokens.head? with
    | some t => t.dpy
    | none => default
  let r := scLoop dpy0 0 tokens
  { column := 0,
    segments := segsOfCuts tokens ((0 :: r.1) ++ [tokens.length]),
    note_refs := r.2 }

-- ======================================================================
-- The line breakers (src/text.rs lines 327-557)
-- ======================================================================

/-- The scanning loop of `next_word_fits` (text.rs lines 333-353) over
the tokens after position `i`, with accumulated width `u`. -/
def nwfScan (line_length : Nat) : Nat → List Token → Bool
  | u, [] => decide (u ≤ line_length)
  | u, t :: rest =>
    if t.frm.mlb then decide (u ≤ line_length)
    else if t.frm.dlb then
      if t.frm.dob then decide (u ≤ line_length)
      else decide (u + t.length ≤ line_length)
    else nwfScan line_length (u + t.length) rest

/-- `next_word_fits` (text.rs lines 327-354): starting at token `i` with
accumulated width `x`, check whether the text up to the next break
candidate fits into `line_length`.  The scan from `j = i + 1` is the
scan over `tokens.drop (i+1)`.  (The Rust indexes `tokens[i]`, so it is
only called with `i` in range; the `[]` case is unreachable from the
line breakers.) -/
def next_word_fits (tokens : List Token) (line_length i x : Nat) : Bool :=
  match tokens.drop i with
  | [] => decide (x ≤ line_length)
  | t :: rest => nwfScan line_length (x + t.length) rest

/-- The split-collection loop of `linebreak_fill` (text.rs lines
376-397), processing `rest = tokens.drop i` with accumulated width `x`;
the final `(tokens.len(), false)` entry is appended at the end of the
walk.  Each pushed entry is `(index+1, discard)`. -/
def fillGo (tokens : List Token) (line_length : Nat) :
    List Token → Nat → Nat → List (Nat × Bool)
  | [], _, _ => [(tokens.length, false)]
  | t :: rest, i, x =>
    if t.frm.mlb then
      (i + 1, true) :: fillGo tokens line_length rest (i + 1) 0
    else if t.frm.dlb then
      if !next_word_fits tokens line_length i x then
        (i + 1, t.frm.dob) :: fillGo tokens line_length rest (i + 1) 0
      else fillGo tokens line_length rest (i + 1) (x + t.length)
    else fillGo tokens line_length rest (i + 1) (x + t.length)

/-- The line-assembly loop shared by `linebreak_fill` and
`linebreak_balance` (text.rs lines 399-412 and 465-478): walk adjacent
split pairs, drop the boundary token when the discard flag is set, and
skip empty ranges. -/
def linesOfSplits (tokens : List Token) : List (Nat × Bool) → List Line
  | s1 :: s2 :: rest =>
    let i := s1.1
    let j := if s2.2 then s2.1 - 1 else s2.1
    if j - i > 0 then
      lineFromTokens (slice tokens i j) :: linesOfSplits tokens (s2 :: rest)
    else linesOfSplits tokens (s2 :: rest)
  | _ => []

/-- `linebreak_fill` (text.rs lines 369-415). -/
def linebreak_fill (tokens : List Token) (line_length : Nat) : List Line :=
  linesOfSplits tokens ((0, false) :: fillGo tokens line_length tokens 0 0)

/-- The split-collection loop of `linebreak_balance` (text.rs lines
442-461): like fill's, but a discretionary candidate splits exactly when
`x + token.length() >= cutoff`; no lookahead is used.  `n` is
`tokens.len()` for the final split entry. -/
def balanceGo (cutoff n : Nat) : List Token → Nat → Nat → List (Nat × Bool)
  | [], _, _ => [(n, false)]
  | t :: rest, i, x =>
    if t.frm.mlb then
      (i + 1, true) :: balanceGo cutoff n rest (i + 1) 0
    else if t.frm.dlb then
      if x + t.length ≥ cutoff then
        (i + 1, t.frm.dob) :: balanceGo cutoff n rest (i + 1) 0
      else balanceGo cutoff n rest (i + 1) (x + t.length)
    else balanceGo cutoff n rest (i + 1) (x + t.length)

/-- `linebreak_balance` (text.rs lines 431-481): `text_length` is the
total token length, `height = text_length / line_length + 1`, and
`cutoff = text_length / height`. -/
def linebreak_balance (tokens : List Token) (line_length : Nat) : List Line :=
  let text_length := sumLen tokens
  let height := text_length / line_length + 1
  let cutoff := text_length / height
  linesOfSplits tokens ((0, false) :: balanceGo cutoff tokens.length tokens 0 0)

/-- The split-collection loop of `linebreak_hang` (text.rs lines
506-530).  `line_length` is the current width budget and `k` counts the
splits pushed so far (the Rust tests `splits.len() == 2`, which holds
after a push exactly when `k = 0` before it, since the vector starts
with the `(0, false)` sentinel).  The budget is reduced by
`min(INDENT, line_length - 1)` only in the discretionary branch. -/
def hangGo (tokens : List Token) (line_length k : Nat) :
    List Token → Nat → Nat → List (Nat × Bool)
  | [], _, _ => [(tokens.length, false)]
  | t :: rest, i, x =>
    if t.frm.mlb then
      (i + 1, true) :: hangGo tokens line_length (k + 1) rest (i + 1) 0
    else if t.frm.dlb then
      if !next_word_fits tokens line_length i x then
        (i + 1, t.frm.dob) ::
          hangGo tokens
            (if k = 0 then line_length - min INDENT (line_length - 1) else line_length)
            (k + 1) rest (i + 1) 0
      else hangGo tokens line_length k rest (i + 1) (x + t.length)
    else hangGo tokens line_length k rest (i + 1) (x + t.length)

/-- The indent segment `repeat(' ').take(INDENT).collect::<String>()`
built by `linebreak_hang` (text.rs line 536). -/
def indentSegment : Segment := Segment.fromString (String.mk (List.replicate INDENT ' '))

/-- The line-assembly loop of `linebreak_hang` (text.rs lines 538-554):
like `linesOfSplits`, but every line after the first emitted one gets
the indent segment inserted at position 0. -/
def hangLines (tokens : List Token) (indent : Segment) :
    List (Nat × Bool) → List Line → List Line
  | s1 :: s2 :: rest, lines =>
    let i := s1.1
    let j := if s2.2 then s2.1 - 1 else s2.1
    if j - i > 0 then
      let line := lineFromTokens (slice tokens i j)
      let line := if lines ≠ [] then { line with segments := indent :: line.segments } else line
      hangLines tokens indent (s2 :: rest) (lines ++ [line])
    else hangLines tokens indent (s2 :: rest) lines
  | _, lines => lines

/-- `linebreak_hang` (text.rs lines 498-557). -/
def linebreak_hang (tokens : List Token) (first_line_length : Nat) : List Line :=
  hangLines tokens indentSegment
    ((0, false) :: hangGo tokens first_line_length 0 tokens 0 0) []

-- ======================================================================
-- Spec-worded models of the line breakers
-- ======================================================================

/-- Modelled from the claim's wording for `linebreak_balance`: walk the
tokens accumulating the current line as a token run `acc`; a mandatory
break always splits (discarding the marker); a discretionary candidate
splits exactly when the accumulated width plus that token's own length
reaches or exceeds the cutoff `c` (discarding the candidate when it is
discard-on-break); empty runs produce no line. -/
def balanceClaimedGo (cutoff : Nat) : List Token → List Token → List Line
  | acc, [] => if acc ≠ [] then [lineFromTokens acc] else []
  | acc, t :: rest =>
    if t.frm.mlb then
      (if acc ≠ [] then [lineFromTokens acc] else []) ++ balanceClaimedGo cutoff [] rest
    else if t.frm.dlb then
      if sumLen acc + t.length ≥ cutoff then
        let kept := if t.frm.dob then acc else acc ++ [t]
        (if kept ≠ [] then [lineFromTokens kept] else []) ++ balanceClaimedGo cutoff [] rest
      else balanceClaimedGo cutoff (acc ++ [t]) rest
    else balanceClaimedGo cutoff (acc ++ [t]) rest

/-- Modelled from the claim's wording: `linebreak_balance` derives a
target row count `h = L / w + 1` and per-row cutoff `c = L / h` from the
total token length `L` and budget `w`, and breaks as in
`balanceClaimedGo`. -/
def linebreak_balance_claimed (tokens : List Token) (budget : Nat) : List Line :=
  let L := sumLen tokens
  let h := L / budget + 1
  let c := L / h
  balanceClaimedGo c [] tokens

/-- Fill-style direct partition with budget `w`: the lookahead-driven
breaking of `linebreak_fill`, stated directly on the accumulated token
run.  Used as the phase after the first split in the spec-worded model
of `linebreak_hang`. -/
def fillClaimedGo (w : Nat) : List Token → List Token → List Line
  | acc, [] => if acc ≠ [] then [lineFromTokens acc] else []
  | acc, t :: rest =>
    if t.frm.mlb then
      (if acc ≠ [] then [lineFromTokens acc] else []) ++ fillClaimedGo w [] rest
    else if t.frm.dlb then
      if !nwfScan w (sumLen acc + t.length) rest then
        let kept := if t.frm.dob then acc else acc ++ [t]
        (if kept ≠ [] then [lineFromTokens kept] else []) ++ fillClaimedGo w [] rest
      else fillClaimedGo w (acc ++ [t]) rest
    else fillClaimedGo w (acc ++ [t]) rest

/-- Modelled from the amended claim's wording for `linebreak_hang`: the
tokens up to and including the first split are broken against the full
budget `w1`; everything after the first split is broken against `w2`. -/
def hangClaimedGo (w1 w2 : Nat) : List Token → List Token → List Line
  | acc, [] => if acc ≠ [] then [lineFromTokens acc] else []
  | acc, t :: rest =>
    if t.frm.mlb then
      (if acc ≠ [] then [lineFromTokens acc] else []) ++ fillClaimedGo w2 [] rest
    else if t.frm.dlb then
      if !nwfScan w1 (sumLen acc + t.length) rest then
        let kept := if t.frm.dob then acc else acc ++ [t]
        (if kept ≠ [] then [lineFromTokens kept] else []) ++ fillClaimedGo w2 [] rest
      else hangClaimedGo w1 w2 (acc ++ [t]) rest
    else hangClaimedGo w1 w2 (acc ++ [t]) rest

/-- Scans for the kind of the first split `linebreak_hang` will make at
budget `w` from accumulated width `x`: `true` when it is a failing
discretionary candidate, `false` when it is a mandatory break or when no
split happens at all. -/
def firstSplitIsDLB (w : Nat) : List Token → Nat → Bool
  | [], _ => false
  | t :: rest, x =>
    if t.frm.mlb then false
    else if t.frm.dlb then
      if !nwfScan w (x + t.length) rest then true
      else firstSplitIsDLB w rest (x + t.length)
    else firstSplitIsDLB w rest (x + t.length)

/-- Modelled from the amended claim's wording for `linebreak_hang`: the
first line is broken against the full budget; lines after the first
split are broken against the budget reduced by `min INDENT (w - 1)` when
the first split is discretionary and against the unreduced budget when
it is mandatory; every emitted line after the first is prepended with
the indent segment. -/
def linebreak_hang_amended (tokens : List Token) (w : Nat) : List Line :=
  let w2 := if firstSplitIsDLB w tokens 0 then w - min INDENT (w - 1) else w
  match hangClaimedGo w w2 [] tokens with
  | [] => []
  | l :: ls => l :: ls.map (fun l => { l with segments := indentSegment :: l.segments })

/-- Modelled from the original claim's wording for `linebreak_hang`: as
the implementation, but the budget reduction at the first split is
applied regardless of whether that split is mandatory or discretionary
(the implementation applies it only in the discretionary branch). -/
def hangGoClaimed (tokens : List Token) (line_length k : Nat) :
    List Token → Nat → Nat → List (Nat × Bool)
  | [], _, _ => [(tokens.length, false)]
  | t :: rest, i, x =>
    if t.frm.mlb then
      (i + 1, true) ::
        hangGoClaimed tokens
          (if k = 0 then line_length - min INDENT (line_length - 1) else line_length)
          (k + 1) rest (i + 1) 0
    else if t.frm.dlb then
      if !next_word_fits tokens line_length i x then
        (i + 1, t.frm.dob) ::
          hangGoClaimed tokens
            (if k = 0 then line_length - min INDENT (line_length - 1) else line_length)
            (k + 1) rest (i + 1) 0
      else hangGoClaimed tokens line_length k rest (i + 1) (x + t.length)
    else hangGoClaimed tokens line_length k rest (i + 1) (x + t.length)

/-- The original claim's reading of `linebreak_hang` (budget reduced at
the first split regardless of its kind), assembled like the
implementation. -/
def linebreak_hang_claimed (tokens : List Token) (first_line_length : Nat) : List Line :=
  hangLines tokens indentSegment
    ((0, false) :: hangGoClaimed tokens first_line_length 0 tokens 0 0) []

-- ======================================================================
-- Checked variants: Option-valued embeddings in which the operations
-- that can fail at runtime in Rust (integer division by zero, unsigned
-- subtraction underflow, out-of-order slicing) return none.
-- ======================================================================

/-- Checked line assembly: `split.0 - 1` underflows when a discard entry
is 0, and the slice `&tokens[i..j]` fails when `j < i`. -/
def linesOfSplitsChk (tokens : List Token) : List (Nat × Bool) → Option (List Line)
  | s1 :: s2 :: rest =>
    match (if s2.2 then (if 1 ≤ s2.1 then some (s2.1 - 1) else none) else some s2.1) with
    | none => none
    | some j =>
      if s1.1 ≤ j then
        match linesOfSplitsChk tokens (s2 :: rest) with
        | none => none
        | some tl =>
          if j - s1.1 > 0 then some (lineFromTokens (slice tokens s1.1 j) :: tl)
          else some tl
      else none
  | _ => some []

/-- Checked `linebreak_fill`: the split-collection loop itself performs
no fallible arithmetic, so only the assembly is checked. -/
def linebreak_fill_chk (tokens : List Token) (line_length : Nat) : Option (List Line) :=
  linesOfSplitsChk tokens ((0, false) :: fillGo tokens line_length tokens 0 0)

/-- Checked `linebreak_balance`: `text_length / line_length` is a
division by zero when the budget is 0. -/
def linebreak_balance_chk (tokens : List Token) (line_length : Nat) : Option (List Line) :=
  if line_length = 0 then none
  else
    let text_length := sumLen tokens
    let height := text_length / line_length + 1
    let cutoff := text_length / height
    linesOfSplitsChk tokens ((0, false) :: balanceGo cutoff tokens.length tokens 0 0)

/-- Checked split collection for `linebreak_hang`: the budget reduction
computes `line_length - 1`, which underflows when the budget is 0. -/
def hangGoChk (tokens : List Token) (line_length k : Nat) :
    List Token → Nat → Nat → Option (List (Nat × Bool))
  | [], _, _ => some [(tokens.length, false)]
  | t :: rest, i, x =>
    if t.frm.mlb then
      (hangGoChk tokens line_length (k + 1) rest (i + 1) 0).map
        (fun tl => (i + 1, true) :: tl)
    else if t.frm.dlb then
      if !next_word_fits tokens line_length i x then
        if k = 0 then
          if 1 ≤ line_length then
            (hangGoChk tokens (line_length - min INDENT (line_length - 1)) (k + 1)
                rest (i + 1) 0).map (fun tl => (i + 1, t.frm.dob) :: tl)
          else none
        else
          (hangGoChk tokens line_length (k + 1) rest (i + 1) 0).map
            (fun tl => (i + 1, t.frm.dob) :: tl)
      else hangGoChk tokens line_length k rest (i + 1) (x + t.length)
    else hangGoChk tokens line_length k rest (i + 1) (x + t.length)

/-- Checked `linebreak_hang`. -/
def linebreak_hang_chk (tokens : List Token) (first_line_length : Nat) : Option (List Line) :=
  match hangGoChk tokens first_line_length 0 tokens 0 0 with
  | none => none
  | some splits => linesOfSplitsChk tokens ((0, false) :: splits)

-- ======================================================================
-- Document model (src/document.rs)
-- ======================================================================

/-- `LineSpacing` (document.rs lines 331-335). -/
inductive LineSpacing where
  | Single
  | Double
deriving DecidableEq

/-- `Tag` (document.rs lines 151-160). -/
inductive Tag where
  | Contact
  | Head
  | ToC
deriving DecidableEq

/-- `Block` (document.rs lines 163-178): formatted lines, footnote
definitions `(label, block list)`, line spacing, signed padding before,
unsigned padding after, and an optional tag. -/
inductive Block where
  | mk (lines : List Line) (footnotes : List (String × List Block))
       (line_spacing : LineSpacing) (padding_before : Int)
       (padding_after : Nat) (tag : Option Tag)

/-- Field accessor for `Block.lines`. -/
def Block.lines : Block → List Line
  | Block.mk l _ _ _ _ _ => l

/-- Field accessor for `Block.footnotes`. -/
def Block.footnotes : Block → List (String × List Block)
  | Block.mk _ f _ _ _ _ => f

/-- Field accessor for `Block.line_spacing`. -/
def Block.line_spacing : Block → LineSpacing
  | Block.mk _ _ s _ _ _ => s

/-- Field accessor for `Block.padding_before`. -/
def Block.padding_before : Block → Int
  | Block.mk _ _ _ p _ _ => p

/-- Field accessor for `Block.padding_after`. -/
def Block.padding_after : Block → Nat
  | Block.mk _ _ _ _ p _ => p

/-- Field accessor for `Block.tag`. -/
def Block.tag : Block → Option Tag
  | Block.mk _ _ _ _ _ t => t

/-- `Block::count_lines` (document.rs lines 183-192): `lines.len() * 2 - 1`
for double spacing, `lines.len()` for single spacing.  The Rust `usize`
subtraction underflows on an empty double-spaced block; here `Nat`
subtraction truncates to 0 (see `Block.count_lines_chk`). -/
def Block.count_lines (b : Block) : Nat :=
  match b.line_spacing with
  | LineSpacing.Double => b.lines.length * 2 - 1
  | LineSpacing.Single => b.lines.length

/-- Checked `Block::count_lines`: the `usize` expression
`lines.len() * 2 - 1` underflows when the block is double-spaced and
empty. -/
def Block.count_lines_chk (b : Block) : Option Nat :=
  match b.line_spacing with
  | LineSpacing.Double =>
    if 1 ≤ b.lines.length * 2 then some (b.lines.length * 2 - 1) else none
  | LineSpacing.Single => some b.lines.length

/-- The free function `count_lines` over a block list (document.rs lines
212-226): sums block heights plus the max-collapsed inter-block padding
(skipped for the first block and for negative padding-before). -/
def count_lines (blocks : List Block) : Nat :=
  (blocks.enum.foldl
    (fun (acc : Nat × Nat) ib =>
      let n := acc.1
      let last_padding_after := acc.2
      let b := ib.2
      let n :=
        if ib.1 > 0 ∧ b.padding_before ≥ 0 then
          n + max b.padding_before.toNat last_padding_after
        else n
      (n + b.count_lines, b.padding_after))
    (0, 0)).1

/-- `Page` (document.rs lines 107-129): page number (non-positive means
unnumbered), height in rows, content rows and footer rows; `none` rows
are blank. -/
structure Page where
  number : Int
  height : Nat
  lines : List (Option Line)
  footer : List (Option Line)

-- ======================================================================
-- The compositor (src/document/compositor.rs)
-- ======================================================================

/-- The pending-footnote table `HashMap<String, BlockList>`
(compositor.rs line 50), embedded as an association list with the map
operations used by the compositor: lookup, replacing insert, remove. -/
abbrev FnTable := List (String × List Block)

/-- `HashMap::get`. -/
def tblGet (tbl : FnTable) (label : String) : Option (List Block) :=
  (tbl.find? (fun kv => kv.1 == label)).map (fun kv => kv.2)

/-- `HashMap::insert` (replaces any existing entry for the key). -/
def tblInsert (tbl : FnTable) (label : String) (v : List Block) : FnTable :=
  (label, v) :: tbl.filter (fun kv => kv.1 != label)

/-- `HashMap::remove` (drops the entry for the key). -/
def tblRemove (tbl : FnTable) (label : String) : FnTable :=
  tbl.filter (fun kv => kv.1 != label)

/-- `Compositor` (compositor.rs lines 44-55).  The Rust keeps all pages
in one growing `Vec<Page>` and mutates its last element through
`cur_page()`; here the last page is held separately in `curPage`, so
the page list is `donePages ++ [curPage]`. -/
structure Compositor where
  contact : Option Block
  donePages : List Page
  curPage : Page
  footnotes : FnTable
  first_page : Int
  next_page_no : Int
  has_structure : Bool
  last_padding_after : Nat

/-- The page list output by the compositor (`self.pages`). -/
def Compositor.pages (s : Compositor) : List Page :=
  s.donePages ++ [s.curPage]

/-- `Compositor::start_a_new_page` (compositor.rs lines 217-227): push a
fresh page of height `TOP_LINE - BOTTOM_LINE + 1` numbered
`next_page_no`, and increment the number. -/
def Compositor.start_a_new_page (s : Compositor) : Compositor :=
  { s with
    donePages := s.donePages ++ [s.curPage],
    curPage := { number := s.next_page_no, height := TOP_LINE - BOTTOM_LINE + 1,
                 lines := [], footer := [] },
    next_page_no := s.next_page_no + 1 }

/-- `self.cur_page().lines.push(row)`. -/
def Compositor.pushContent (s : Compositor) (row : Option Line) : Compositor :=
  { s with curPage := { s.curPage with lines := s.curPage.lines ++ [row] } }

/-- The padding loop `for _ in 0..padding { self.cur_page().lines.push(None) }`
(compositor.rs lines 134-136). -/
def Compositor.pushContentN (s : Compositor) (n : Nat) : Compositor :=
  { s with curPage := { s.curPage with lines := s.curPage.lines ++ List.replicate n none } }

/-- `self.cur_page().footer.push(row)`. -/
def Compositor.pushFooter (s : Compositor) (row : Option Line) : Compositor :=
  { s with curPage := { s.curPage with footer := s.curPage.footer ++ [row] } }

/-- The footer-height counting loop (compositor.rs lines 244-257): for
each referenced label, add one separating row whenever at least one
footnote was already counted, and the pending footnote's `count_lines`
when the label resolves.  `j` counts resolved labels. -/
def footerHeightLoop (tbl : FnTable) : List String → Nat → Nat → Nat
  | [], fh, _ => fh
  | label :: rest, fh, j =>
    let fh := if j > 0 then fh + 1 else fh
    match tblGet tbl label with
    | some fn => footerHeightLoop tbl rest (fh + count_lines fn) (j + 1)
    | none => footerHeightLoop tbl rest fh j

/-- The footnote-placement inner loops (compositor.rs lines 284-299):
push every line of every block of the footnote into the footer, adding a
blank row after each line except the very last when the footnote block
is double-spaced. -/
def Compositor.pushFnBlocks (s : Compositor) (blocks : List Block) : Compositor :=
  let m := blocks.length
  blocks.enum.foldl
    (fun s jb =>
      let n := jb.2.lines.length
      jb.2.lines.enum.foldl
        (fun s kl =>
          let s := s.pushFooter (some kl.2)
          if (jb.1 < m - 1 ∨ kl.1 < n - 1) ∧ jb.2.line_spacing = LineSpacing.Double
          then s.pushFooter none
          else s)
        s)
    s

/-- Placement of one referenced label (compositor.rs lines 275-301):
`footnotes.remove(label)`; on a hit, push a separating blank row when
the footer is non-empty, then the footnote's rows.  Unresolved labels
are filtered out (no error). -/
def Compositor.placeFnLabel (s : Compositor) (label : String) : Compositor :=
  match tblGet s.footnotes label with
  | none => s
  | some blocks =>
    let s := { s with footnotes := tblRemove s.footnotes label }
    let s := if s.curPage.footer ≠ [] then s.pushFooter none else s
    s.pushFnBlocks blocks

/-- The loop over a line's note references placing pending footnotes. -/
def Compositor.placeFootnotes (s : Compositor) (refs : List String) : Compositor :=
  refs.foldl Compositor.placeFnLabel s

/-- The first remaining-room computation (compositor.rs lines 259-268):
height minus used rows minus one for the current line, minus the footer
growth, minus 2 for the footnote separator; one more separating row plus
the existing footer is subtracted when the footer is non-empty.
Performed in the signed domain (`i32`). -/
def lineRemainder1 (p : Page) (footer_height : Nat) : Int :=
  let r : Int := (p.height : Int) - (p.lines.length : Int) - 1 - (footer_height : Int) - 2
  if p.footer ≠ [] then r - 1 - (p.footer.length : Int) else r

/-- The second remaining-room computation (compositor.rs lines 306-311):
re-checked after footnote placement; the footer length plus 2 is
subtracted when the footer is non-empty. -/
def lineRemainder2 (p : Page) : Int :=
  let r : Int := (p.height : Int) - (p.lines.length : Int) - 1
  if p.footer ≠ [] then r - ((p.footer.length : Int) + 2) else r

/-- The body of `compose_block`'s per-line loop (compositor.rs lines
242-329) for the line at index `i` of a block with `page_height` lines
and spacing `sp`: place pending footnotes (with a page break first when
the room including required footer growth drops below one row), then
re-check the room for the line itself, push it, and add a blank row for
double spacing when the line is not the block's last and at least one
more row remains free. -/
def Compositor.composeLine (s : Compositor) (line : Line) (i page_height : Nat)
    (sp : LineSpacing) : Compositor :=
  let s :=
    if line.note_refs ≠ [] then
      let fh := footerHeightLoop s.footnotes line.note_refs 0 0
      let s := if lineRemainder1 s.curPage fh < 1 then s.start_a_new_page else s
      s.placeFootnotes line.note_refs
    else s
  let s := if lineRemainder2 s.curPage < 1 then s.start_a_new_page else s
  let s := s.pushContent (some line)
  if i < page_height - 1 ∧ sp = LineSpacing.Double ∧
      s.curPage.height - s.curPage.lines.length > 1
  then s.pushContent none
  else s

/-- `Compositor::compose_block` (compositor.rs lines 234-330): transfer
the block's footnote definitions into the pending table (replacing any
same-label entries), then compose the lines in order. -/
def Compositor.compose_block (s : Compositor) (b : Block) : Compositor :=
  let s := b.footnotes.foldl
    (fun s kv => { s with footnotes := tblInsert s.footnotes kv.1 kv.2 }) s
  let page_height := b.lines.length
  b.lines.enum.foldl
    (fun s il => s.composeLine il.2 il.1 page_height b.line_spacing) s

/-- `Compositor::compose` (compositor.rs lines 121-139): a negative
padding-before forces a new page and becomes `|padding_before| - 1`;
the applied padding is the max of that and the previous block's
padding-after (never the sum).  The Rust threads `padding_before`
through an `&mut i32` that is overwritten before every use; it is local
here. -/
def Compositor.compose (s : Compositor) (b : Block) : Compositor :=
  let sp : Compositor × Int :=
    if b.padding_before < 0 then
      ({ s.start_a_new_page with last_padding_after := 0 }, -b.padding_before - 1)
    else (s, b.padding_before)
  let padding := max sp.2.toNat sp.1.last_padding_after
  let s := { sp.1 with last_padding_after := b.padding_after }
  let s := s.pushContentN padding
  s.compose_block b

/-- One deferred table-of-contents entry (compositor.rs lines 163-214):
append the dot-leader segment (parity-dependent padding, reserved
page-number width) to the entry's first line, then start a new page when
the entry would be split, and compose it. -/
def Compositor.composeTocEntry (s : Compositor) (pb : Int × Block) : Compositor :=
  match pb.2.lines with
  | [] => s
  | line :: rest =>
    let line_length := RIGHT_MARGIN - LEFT_MARGIN + 1
    let n := line.length
    let pstr := toString pb.1
    let p := pstr.length
    let spaces_remaining := line_length - n - p
    let sb : Nat × String :=
      if n % 2 = 1 then (spaces_remaining - 1, " ") else (spaces_remaining - 2, "  ")
    let after_pad := if p % 2 = 0 then " " else ""
    let dots := String.join (List.replicate (sb.1 / 2) ". ")
    let line := { line with
      segments := line.segments ++ [Segment.fromString (sb.2 ++ dots ++ after_pad ++ pstr)] }
    let b := Block.mk (line :: rest) pb.2.footnotes pb.2.line_spacing
      pb.2.padding_before pb.2.padding_after pb.2.tag
    let remainder : Int :=
      (s.curPage.height : Int) - (s.curPage.lines.length : Int) - 1 - 1
    let s :=
      if remainder < (b.count_lines : Int) then
        { s.start_a_new_page with last_padding_after := 0 }
      else s
    s.compose b

/-- `Compositor::compose_toc` (compositor.rs lines 141-215): reset the
page number to unnumbered, compose the centered section header on a
fresh page, then the deferred entries. -/
def Compositor.compose_toc (s : Compositor) (blocks : List (Int × Block)) : Compositor :=
  let center := LEFT_MARGIN + (RIGHT_MARGIN - LEFT_MARGIN) / 2
  let seg := Segment.fromString ("Table of Contents")
  let n := seg.text.length
  let header : Line := { column := center - n / 2 - n % 2, segments := [seg], note_refs := [] }
  let s := { s with next_page_no := -1 }
  let s := s.compose (Block.mk [header] [] LineSpacing.Single (-1) CHAPTER_SKIP (some Tag.ToC))
  blocks.foldl Compositor.composeTocEntry s

/-- The block dispatch loop of `Compositor::run` (compositor.rs lines
94-111): contact blocks are set aside, head blocks composed, ToC blocks
recorded with the current page number for deferred composition, untagged
blocks composed. -/
def Compositor.runLoop : Compositor → List (Int × Block) → List Block →
    Compositor × List (Int × Block)
  | s, toc, [] => (s, toc)
  | s, toc, b :: rest =>
    match b.tag with
    | some Tag.Contact => Compositor.runLoop { s with contact := some b } toc rest
    | some Tag.Head => Compositor.runLoop (s.compose b) toc rest
    | some Tag.ToC => Compositor.runLoop s (toc ++ [(s.curPage.number, b)]) rest
    | none => Compositor.runLoop (s.compose b) toc rest

/-- `Compositor::new(first_page, has_structure)` followed by
`Compositor::run(blocks)` (compositor.rs lines 66-118).  On the first
run the page list is empty, so the first page is created immediately:
with structure, the title page is created before numbering is set (page
number -1, then `next_page_no = first_page`); without structure,
numbering is set first (page number `first_page`).  Deferred ToC entries
are composed at the end when present. -/
def Compositor.run (first_page : Int) (has_structure : Bool) (blocks : List Block) :
    Compositor :=
  let s0 : Compositor :=
    if has_structure then
      { contact := none, donePages := [],
        curPage := { number := -1, height := TOP_LINE - BOTTOM_LINE + 1,
                     lines := [], footer := [] },
        footnotes := [], first_page := first_page, next_page_no := first_page,
        has_structure := has_structure, last_padding_after := 0 }
    else
      { contact := none, donePages := [],
        curPage := { number := first_page, height := TOP_LINE - BOTTOM_LINE + 1,
                     lines := [], footer := [] },
        footnotes := [], first_page := first_page, next_page_no := first_page + 1,
        has_structure := has_structure, last_padding_after := 0 }
  let r := Compositor.runLoop s0 [] blocks
  if r.2.isEmpty then r.1 else r.1.compose_toc r.2

-- ======================================================================
-- Observables used by the theorems
-- ======================================================================

/-- The non-blank content rows of a page, in order. -/
def pageContent (p : Page) : List Line := p.lines.filterMap id

/-- All non-blank content rows of all pages of a compositor state. -/
def contentFlat (s : Compositor) : List Line :=
  ((s.donePages ++ [s.curPage]).map pageContent).flatten

/-- All footer rows of all pages of a compositor state. -/
def footerFlat (s : Compositor) : List (Option Line) :=
  ((s.donePages ++ [s.curPage]).map Page.footer).flatten

/-- The content rows a block occupies when it is placed on a single page
with room to spare: each line, with a blank row between consecutive
lines under double spacing. -/
def renderedRows : LineSpacing → List Line → List (Option Line)
  | LineSpacing.Single, ls => ls.map some
  | LineSpacing.Double, [] => []
  | LineSpacing.Double, [l] => [some l]
  | LineSpacing.Double, l :: ls => some l :: none :: renderedRows LineSpacing.Double ls

-- ======================================================================
-- Predicates and helpers used by the theorem statements
-- ======================================================================

/-- Total text length of a token list (character count of the
concatenated token texts). -/
def textLen (ts : List Token) : Nat := (ts.map (fun t => (tokenText t).length)).sum

/-- No token of the list is a legal break candidate: neither a mandatory
break nor a discretionary one. -/
def noBreakTok (ts : List Token) : Prop :=
  ∀ t ∈ ts, t.frm.mlb = false ∧ t.frm.dlb = false

/-- The width contribution, starting at a given position, of the text up
to the next break candidate: the candidate's own length is included only
for a non-discard discretionary candidate, exactly as `next_word_fits`
reserves it. -/
def upToBreak : List Token → Nat
  | [] => 0
  | t :: rest =>
    if t.frm.mlb then 0
    else if t.frm.dlb then (if t.frm.dob then 0 else t.length)
    else t.length + upToBreak rest

/-- Adjacent pairs of a list. -/
def pairsOf {α : Type} (l : List α) : List (α × α) := l.zip l.tail

/-- The token range `[a, j)` described by an adjacent split pair, where
`j` drops the boundary token when the discard flag of the right split is
set. -/
def pairEnd (pr : (Nat × Bool) × (Nat × Bool)) : Nat :=
  if pr.2.2 then pr.2.1 - 1 else pr.2.1

/-- Well-formedness of an adjacent split pair: the (possibly
discard-adjusted) right end is at least 1 when discarding, and the range
is forward. These are exactly the facts needed for the `usize`
subtractions and the slicing of the assembly loop to be in range. -/
def orderedPair (pr : (Nat × Bool) × (Nat × Bool)) : Prop :=
  (pr.2.2 = true → 1 ≤ pr.2.1) ∧ pr.1.1 ≤ pairEnd pr

/-- The budget invariant for an adjacent split pair produced by
`linebreak_fill`: the line it denotes either fits the budget, or every
token of the line except possibly its last one is no break candidate
(a single unbreakable run). -/
def goodPair (tokens : List Token) (line_length : Nat)
    (pr : (Nat × Bool) × (Nat × Bool)) : Prop :=
  orderedPair pr ∧ pairEnd pr ≤ tokens.length ∧
  (sumLen (slice tokens pr.1.1 (pairEnd pr)) ≤ line_length ∨
    noBreakTok (slice tokens pr.1.1 (pairEnd pr)).dropLast)

-- ======================================================================
-- Concrete token and line fixtures (mirroring the From impls in
-- tokens.rs lines 538-591) used by concrete instantiations
-- ======================================================================

/-- A word token `Token::<WordData>::from(&str)`: empty flags. -/
def wordTok (s : String) : Token := ⟨TokenKind.Word, s, default, default⟩

/-- A space token `Token::<SpaceData>::from(usize)`: format flags
`DLB | DOB`. -/
def spaceTok : Token := ⟨TokenKind.Space, " ", default, ⟨false, true, false, true⟩⟩

/-- A mandatory line break token: zero length, format flag `MLB`. -/
def breakTok : Token := ⟨TokenKind.LineBreak, "", default, ⟨false, false, true, false⟩⟩

-- ======================================================================
-- Infrastructure lemmas
-- ======================================================================

@[simp]
theorem sumLen_nil : sumLen [] = 0 := rfl

@[simp]
theorem sumLen_cons (t : Token) (ts : List Token) :
    sumLen (t :: ts) = t.length + sumLen ts := by
  simp [sumLen]

@[simp]
theorem sumLen_append (a b : List Token) : sumLen (a ++ b) = sumLen a + sumLen b := by
  simp [sumLen]

@[simp]
theorem textLen_nil : textLen [] = 0 := rfl

@[simp]
theorem textLen_cons (t : Token) (ts : List Token) :
    textLen (t :: ts) = (tokenText t).length + textLen ts := by
  simp [textLen]

@[simp]
theorem textLen_append (a b : List Token) : textLen (a ++ b) = textLen a + textLen b := by
  simp [textLen]

theorem tokenText_length (t : Token) : (tokenText t).length = t.length := by
  cases t with
  | mk kind text dpy frm => cases kind <;> simp [tokenText, Token.length]

theorem textLen_eq_sumLen (ts : List Token) : textLen ts = sumLen ts := by
  induction ts with
  | nil => rfl
  | cons t ts ih => simp [tokenText_length, ih]

theorem noBreakTok_nil : noBreakTok [] := by
  intro t ht
  cases ht

theorem noBreakTok_dropLast {ts : List Token} (h : noBreakTok ts) :
    noBreakTok ts.dropLast := by
  intro t ht
  exact h t (List.dropLast_subset ts ht)

@[simp]
theorem slice_self (tokens : List Token) (i : Nat) : slice tokens i i = [] := by
  simp [slice]

theorem slice_zero_full (tokens : List Token) : slice tokens 0 tokens.length = tokens := by
  simp [slice]

theorem getElem?_of_drop_eq {tokens : List Token} {i : Nat} {t : Token}
    {rest : List Token} (h : tokens.drop i = t :: rest) : tokens[i]? = some t := by
  have h0 : (tokens.drop i)[0]? = some t := by rw [h]; simp
  rwa [List.getElem?_drop, Nat.add_zero] at h0

theorem lt_length_of_drop_eq {tokens : List Token} {i : Nat} {t : Token}
    {rest : List Token} (h : tokens.drop i = t :: rest) : i < tokens.length := by
  by_contra hle
  rw [List.drop_eq_nil_of_le (Nat.le_of_not_lt hle)] at h
  cases h

theorem drop_succ_of_drop_eq {tokens : List Token} {i : Nat} {t : Token}
    {rest : List Token} (h : tokens.drop i = t :: rest) : tokens.drop (i + 1) = rest := by
  have : tokens.drop (i + 1) = (tokens.drop i).drop 1 := by
    rw [List.drop_drop]
  rw [this, h]
  rfl

theorem slice_snoc {tokens : List Token} {i : Nat} {t : Token} {rest : List Token}
    (h : tokens.drop i = t :: rest) {p : Nat} (hp : p ≤ i) :
    slice tokens p (i + 1) = slice tokens p i ++ [t] := by
  have hstep : i + 1 - p = (i - p) + 1 := by omega
  have hget : (tokens.drop p)[i - p]? = some t := by
    rw [List.getElem?_drop]
    have : p + (i - p) = i := by omega
    rw [this]
    exact getElem?_of_drop_eq h
  simp [slice, hstep, List.take_succ, hget]

theorem slice_of_ge {tokens : List Token} {i p : Nat} (h : tokens.length ≤ i) :
    slice tokens p i = tokens.drop p := by
  apply List.take_of_length_le
  simp only [List.length_drop]
  omega

theorem slice_length {tokens : List Token} {i j : Nat} (hij : i ≤ j)
    (hj : j ≤ tokens.length) : (slice tokens i j).length = j - i := by
  simp only [slice, List.length_take, List.length_drop]
  omega

theorem slice_append {tokens : List Token} {a c b : Nat} (hac : a ≤ c) (hcb : c ≤ b) :
    slice tokens a b = slice tokens a c ++ slice tokens c b := by
  have h1 : b - a = (c - a) + (b - c) := by omega
  have h2 : (tokens.drop a).drop (c - a) = tokens.drop c := by
    rw [List.drop_drop]
    congr 1
    omega
  simp [slice, h1, List.take_add, h2]

@[simp]
theorem pairsOf_nil {α : Type} : pairsOf ([] : List α) = [] := rfl

@[simp]
theorem pairsOf_single {α : Type} (x : α) : pairsOf [x] = [] := rfl

@[simp]
theorem pairsOf_cons₂ {α : Type} (x y : α) (l : List α) :
    pairsOf (x :: y :: l) = (x, y) :: pairsOf (y :: l) := rfl

@[simp]
theorem tblGet_insert_self (tbl : FnTable) (label : String) (v : List Block) :
    tblGet (tblInsert tbl label v) label = some v := by
  simp [tblGet, tblInsert, List.find?]

theorem tblGet_filter_ne (tbl : FnTable) (lab other : String) (hne : other ≠ lab) :
    tblGet (tbl.filter (fun kv => kv.1 != lab)) other = tblGet tbl other := by
  induction tbl with
  | nil => rfl
  | cons kv tbl ih =>
    by_cases hk : kv.1 = other
    · subst hk
      have : (kv.1 != lab) = true := by simp [hne]
      simp [tblGet, List.filter, this, List.find?]
    · by_cases hl : kv.1 = lab
      · have : (kv.1 != lab) = false := by simp [hl]
        simp only [tblGet, List.filter, this] at *
        rw [ih]
        have hfind : (kv.1 == other) = false := by simp [hk]
        simp [tblGet, List.find?, hfind]
      · have : (kv.1 != lab) = true := by simp [hl]
        have hfind : (kv.1 == other) = false := by simp [hk]
        simp only [tblGet, List.filter, this, List.find?, hfind] at *
        exact ih

@[simp]
theorem tblGet_insert_ne (tbl : FnTable) (lab other : String) (v : List Block)
    (hne : other ≠ lab) : tblGet (tblInsert tbl lab v) other = tblGet tbl other := by
  have hfind : (lab == other) = false := by
    have : ¬lab = other := fun h => hne h.symm
    simp [this]
  simp only [tblGet, tblInsert, List.find?, hfind]
  exact tblGet_filter_ne tbl lab other hne

@[simp]
theorem tblGet_remove_self (tbl : FnTable) (label : String) :
    tblGet (tblRemove tbl label) label = none := by
  induction tbl with
  | nil => rfl
  | cons kv tbl ih =>
    by_cases hl : kv.1 = label
    · have h1 : (kv.1 != label) = false := by simp [hl]
      simp only [tblRemove, List.filter_cons, h1] at *
      simp only [Bool.false_eq_true, if_false]
      exact ih
    · have h1 : (kv.1 != label) = true := by simp [hl]
      have h2 : (kv.1 == label) = false := by simp [hl]
      simp only [tblRemove, tblGet, List.filter_cons, h1, if_true, List.find?, h2] at *
      exact ih

@[simp]
theorem tblGet_remove_ne (tbl : FnTable) (lab other : String) (hne : other ≠ lab) :
    tblGet (tblRemove tbl lab) other = tblGet tbl other :=
  tblGet_filter_ne tbl lab other hne

-- ======================================================================
-- Line length: the segmentation of `Line::from(&[TokenType])` covers the
-- token list, so a line's length is the total token length of its range.
-- ======================================================================

theorem string_join_length (l : List String) :
    (String.join l).length = (l.map String.length).sum := by
  have general : ∀ (l : List String) (s : String),
      (l.foldl (fun a b => a ++ b) s).length = s.length + (l.map String.length).sum := by
    intro l
    induction l with
    | nil => intro s; simp
    | cons x xs ih =>
      intro s
      simp only [List.foldl, ih, List.map, List.sum_cons, String.length_append]
      omega
  simpa using general l ""

theorem segmentOfTokens_text_length (ts : List Token) :
    (segmentOfTokens ts).text.length = textLen ts := by
  simp only [segmentOfTokens, string_join_length, textLen]
  congr 1
  simp [Function.comp]

theorem chain_le_weaken_head {l : List Nat} {a b : Nat} (hab : a ≤ b)
    (h : List.Chain' (· ≤ ·) (b :: l)) : List.Chain' (· ≤ ·) (a :: l) := by
  rcases List.chain'_cons'.mp h with ⟨hb, hl⟩
  exact List.chain'_cons'.mpr ⟨fun c hc => le_trans hab (hb c hc), hl⟩

theorem scLoop_chain (ts : List Token) :
    ∀ (dpy : DisplayFlags) (i : Nat),
      List.Chain' (· ≤ ·) ((i :: (scLoop dpy i ts).1) ++ [i + ts.length]) := by
  induction ts with
  | nil =>
    intro dpy i
    simp [scLoop]
  | cons t ts ih =>
    intro dpy i
    have harith : i + (t :: ts).length = (i + 1) + ts.length := by
      simp
      omega
    rcases t with ⟨k, txt, td, tf⟩
    cases k
    case LineBreak =>
      simp only [scLoop, harith, List.cons_append]
      have := ih dpy (i + 1)
      simp only [List.cons_append] at this
      exact chain_le_weaken_head (Nat.le_succ i) this
    all_goals (
      by_cases hd : td ≠ dpy
      · simp only [scLoop]
        rw [if_pos hd]
        simp only [harith, List.cons_append]
        have := ih td (i + 1)
        simp only [List.cons_append] at this
        refine List.Chain'.cons (le_refl i) ?_
        exact chain_le_weaken_head (Nat.le_succ i) this
      · simp only [scLoop]
        rw [if_neg hd]
        simp only [harith, List.cons_append]
        have := ih dpy (i + 1)
        simp only [List.cons_append] at this
        exact chain_le_weaken_head (Nat.le_succ i) this)

theorem segsOfCuts_textLen (tokens : List Token) :
    ∀ (l : List Nat) (a b : Nat),
      List.Pairwise (· ≤ ·) (a :: (l ++ [b])) →
      ((segsOfCuts tokens (a :: (l ++ [b]))).map (fun s => s.text.length)).sum
        = textLen (slice tokens a b) := by
  intro l
  induction l with
  | nil =>
    intro a b hp
    have hab : a ≤ b := by
      rcases List.pairwise_cons.mp hp with ⟨hrel, _⟩
      exact hrel b (by simp)
    by_cases hba : b - a > 0
    · simp [segsOfCuts, hba, segmentOfTokens_text_length]
    · have hba' : b - a = 0 := by omega
      simp [segsOfCuts, hba, slice, hba']
  | cons c l ih =>
    intro a b hp
    have hac : a ≤ c := by
      rcases List.pairwise_cons.mp hp with ⟨hrel, _⟩
      exact hrel c (by simp)
    have hcb : c ≤ b := by
      rcases List.pairwise_cons.mp hp with ⟨_, hp'⟩
      rcases List.pairwise_cons.mp hp' with ⟨hrel, _⟩
      exact hrel b (by simp)
    have htail : List.Pairwise (· ≤ ·) (c :: (l ++ [b])) := by
      rcases List.pairwise_cons.mp hp with ⟨_, hp'⟩
      exact hp'
    have hrest := ih c b htail
    by_cases hca : c - a > 0
    · simp only [List.cons_append, segsOfCuts, hca, if_true, List.map, List.sum_cons,
        List.append_eq]
      simp only [List.cons_append, List.append_eq] at hrest
      rw [segmentOfTokens_text_length, hrest,
        @slice_append tokens a c b hac hcb, textLen_append]
    · have hca' : c = a := by omega
      simp only [List.cons_append, segsOfCuts, hca, if_false, List.append_eq]
      simp only [List.cons_append, List.append_eq] at hrest
      rw [hrest, hca']

theorem lineFromTokens_length (ts : List Token) :
    (lineFromTokens ts).length = sumLen ts := by
  set dpy0 := match ts.head? with
    | some t => t.dpy
    | none => (default : DisplayFlags) with hdpy0
  have hchain := scLoop_chain ts dpy0 0
  have hpair : List.Pairwise (· ≤ ·) (0 :: ((scLoop dpy0 0 ts).1 ++ [ts.length])) := by
    rw [List.chain'_iff_pairwise] at hchain
    simpa using hchain
  have := segsOfCuts_textLen ts (scLoop dpy0 0 ts).1 0 ts.length hpair
  simp only [Line.length, lineFromTokens]
  rw [← hdpy0]
  simp only [List.cons_append] at this ⊢
  rw [this, slice_zero_full, textLen_eq_sumLen]


-- ======================================================================
-- C1: the fill budget invariant
-- ======================================================================

theorem nwfScan_eq (line_length : Nat) :
    ∀ (rest : List Token) (u : Nat),
      nwfScan line_length u rest = decide (u + upToBreak rest ≤ line_length) := by
  intro rest
  induction rest with
  | nil => intro u; simp [nwfScan, upToBreak]
  | cons t rest ih =>
    intro u
    cases hm : t.frm.mlb
    · cases hdlb : t.frm.dlb
      · simp only [nwfScan, hm, hdlb, Bool.false_eq_true, if_false, upToBreak, ih]
        congr 1
        simp [Nat.add_assoc]
      · cases hdob : t.frm.dob
        · simp [nwfScan, hm, hdlb, hdob, upToBreak]
        · simp [nwfScan, hm, hdlb, hdob, upToBreak]
    · simp [nwfScan, hm, upToBreak]

theorem next_word_fits_eq {tokens : List Token} {i : Nat} {t : Token}
    {rest : List Token} (h : tokens.drop i = t :: rest) (line_length x : Nat) :
    next_word_fits tokens line_length i x
      = decide (x + t.length + upToBreak rest ≤ line_length) := by
  simp only [next_word_fits, h, nwfScan_eq]

theorem fillGo_invariant (tokens : List Token) (line_length : Nat) :
    ∀ (rest : List Token) (i x p : Nat) (d : Bool),
      tokens.drop i = rest → p ≤ i → p ≤ tokens.length →
      x = sumLen (slice tokens p i) →
      (noBreakTok (slice tokens p i) ∨ x + upToBreak rest ≤ line_length) →
      ∀ pr ∈ pairsOf ((p, d) :: fillGo tokens line_length rest i x),
        goodPair tokens line_length pr := by
  intro rest
  induction rest with
  | nil =>
    intro i x p d hdrop hpi hpn hx hinv pr hpr
    have hni : tokens.length ≤ i := List.drop_eq_nil_iff.mp hdrop
    have hslice : slice tokens p i = slice tokens p tokens.length := by
      rw [slice_of_ge hni, slice_of_ge (le_refl tokens.length)]
    simp only [fillGo, pairsOf_cons₂, pairsOf_single, List.mem_singleton] at hpr
    subst hpr
    refine ⟨⟨fun hfalse => absurd hfalse (by simp), ?_⟩, ?_, ?_⟩
    · simpa [pairEnd] using hpn
    · simp [pairEnd]
    · rcases hinv with hnb | hle
      · right
        rw [pairEnd]
        simp only [if_false, Bool.false_eq_true]
        rw [← hslice]
        exact noBreakTok_dropLast hnb
      · left
        rw [pairEnd]
        simp only [if_false, Bool.false_eq_true]
        rw [← hslice, ← hx]
        simpa [upToBreak] using hle
  | cons t rest ih =>
    intro i x p d hdrop hpi hpn hx hinv pr hpr
    have hin : i < tokens.length := lt_length_of_drop_eq hdrop
    have hdrop' : tokens.drop (i + 1) = rest := drop_succ_of_drop_eq hdrop
    have hsnoc : slice tokens p (i + 1) = slice tokens p i ++ [t] := slice_snoc hdrop hpi
    have hresetInv : noBreakTok (slice tokens (i + 1) (i + 1)) ∨
        0 + upToBreak rest ≤ line_length := by
      left
      rw [slice_self]
      exact noBreakTok_nil
    have hresetX : (0 : Nat) = sumLen (slice tokens (i + 1) (i + 1)) := by simp
    cases hm : t.frm.mlb
    case true =>
      -- mandatory break: split after this token, discarding it
      simp only [fillGo, hm, if_true, pairsOf_cons₂, List.mem_cons] at hpr
      rcases hpr with hpr | hpr
      · subst hpr
        have hend : pairEnd ((p, d), (i + 1, true)) = i := by simp [pairEnd]
        refine ⟨⟨fun _ => Nat.le_add_left 1 i, ?_⟩, ?_, ?_⟩
        · rw [hend]; exact hpi
        · rw [hend]; exact Nat.le_of_lt hin
        · rw [hend]
          rcases hinv with hnb | hle
          · exact Or.inr (noBreakTok_dropLast hnb)
          · left
            rw [← hx]
            simpa [upToBreak, hm] using hle
      · exact ih (i + 1) 0 (i + 1) true hdrop' (le_refl _) hin hresetX hresetInv pr hpr
    case false =>
      cases hdlb : t.frm.dlb
      case false =>
        -- not a break candidate: accumulate
        have hext : noBreakTok (slice tokens p i) → noBreakTok (slice tokens p (i + 1)) := by
          intro hnb u hu
          rw [hsnoc] at hu
          rcases List.mem_append.mp hu with hu | hu
          · exact hnb u hu
          · rcases List.mem_singleton.mp hu with rfl
            exact ⟨hm, hdlb⟩
        have hinv' : noBreakTok (slice tokens p (i + 1)) ∨
            x + t.length + upToBreak rest ≤ line_length := by
          rcases hinv with hnb | hle
          · exact Or.inl (hext hnb)
          · right
            simp only [upToBreak, hm, hdlb, Bool.false_eq_true, if_false] at hle
            omega
        have hx' : x + t.length = sumLen (slice tokens p (i + 1)) := by
          rw [hsnoc, sumLen_append, hx]
          simp [Nat.add_comm]
        simp only [fillGo, hm, hdlb, Bool.false_eq_true, if_false] at hpr
        exact ih (i + 1) (x + t.length) p d hdrop' (Nat.le_succ_of_le hpi) hpn hx' hinv' pr hpr
      case true =>
        cases hfit : next_word_fits tokens line_length i x
        case false =>
          -- the lookahead fails: split before/at this token
          simp only [fillGo, hm, hdlb, hfit, Bool.false_eq_true, if_false, if_true,
            Bool.not_false, pairsOf_cons₂, List.mem_cons] at hpr
          rcases hpr with hpr | hpr
          · subst hpr
            have hple : p ≤ pairEnd ((p, d), (i + 1, t.frm.dob)) := by
              rw [pairEnd]
              by_cases hdob : t.frm.dob = true <;> simp [hdob] <;> omega
            refine ⟨⟨fun _ => Nat.le_add_left 1 i, hple⟩, ?_, ?_⟩
            · rw [pairEnd]
              by_cases hdob : t.frm.dob = true <;> simp [hdob] <;> omega
            · rcases hinv with hnb | hle
              · right
                rw [pairEnd]
                by_cases hdob : t.frm.dob = true
                · simp only [hdob, if_true]
                  simpa using noBreakTok_dropLast hnb
                · simp only [hdob, Bool.false_eq_true, if_false]
                  rw [hsnoc, List.dropLast_concat]
                  exact hnb
              · left
                rw [pairEnd]
                simp only [upToBreak, hm, hdlb, Bool.false_eq_true, if_false, if_true] at hle
                by_cases hdob : t.frm.dob = true
                · simp only [hdob, if_true] at hle ⊢
                  simp only [Nat.add_zero] at hle
                  rw [Nat.add_sub_cancel, ← hx]
                  exact hle
                · simp only [hdob, Bool.false_eq_true, if_false] at hle ⊢
                  have hs : sumLen (slice tokens p (i + 1)) = x + t.length := by
                    rw [hsnoc, sumLen_append, ← hx]
                    simp
                  rw [hs]
                  exact hle
          · exact ih (i + 1) 0 (i + 1) t.frm.dob hdrop' (le_refl _) hin hresetX hresetInv pr hpr
        case true =>
          -- the lookahead succeeds: accumulate
          have hle' : x + t.length + upToBreak rest ≤ line_length := by
            have := next_word_fits_eq hdrop line_length x
            rw [hfit] at this
            exact of_decide_eq_true this.symm
          have hx' : x + t.length = sumLen (slice tokens p (i + 1)) := by
            rw [hsnoc, sumLen_append, hx]
            simp [Nat.add_comm]
          simp only [fillGo, hm, hdlb, hfit, Bool.false_eq_true, if_false, if_true,
            Bool.not_true] at hpr
          exact ih (i + 1) (x + t.length) p d hdrop' (Nat.le_succ_of_le hpi) hpn hx'
            (Or.inr hle') pr hpr

theorem linesOfSplits_spec (tokens : List Token) :
    ∀ (S : List (Nat × Bool)) (line : Line), line ∈ linesOfSplits tokens S →
      ∃ pr ∈ pairsOf S, 0 < pairEnd pr - pr.1.1 ∧
        line = lineFromTokens (slice tokens pr.1.1 (pairEnd pr)) := by
  intro S
  induction S with
  | nil => intro line hline; cases hline
  | cons s1 S ih =>
    intro line hline
    cases S with
    | nil => cases hline
    | cons s2 rest =>
      by_cases hguard : (if s2.2 then s2.1 - 1 else s2.1) - s1.1 > 0
      · simp only [linesOfSplits, hguard, if_true, List.mem_cons] at hline
        rcases hline with hline | hline
        · refine ⟨(s1, s2), by simp [pairsOf_cons₂], ?_, ?_⟩
          · simpa [pairEnd] using hguard
          · simpa [pairEnd] using hline
        · obtain ⟨pr, hmem, hrest⟩ := ih line hline
          exact ⟨pr, by simp [pairsOf_cons₂, hmem], hrest⟩
      · simp only [linesOfSplits, hguard, if_false] at hline
        obtain ⟨pr, hmem, hrest⟩ := ih line hline
        exact ⟨pr, by simp [pairsOf_cons₂, hmem], hrest⟩

/-- C1: every line emitted by `linebreak_fill` has total length at most
the budget, except where the line is the rendering of a single
contiguous run `slice tokens a b` of the INPUT tokens (with the input's
own flags) that itself exceeds the budget and contains no legal break
point before its last token -- every token of such an overflowing run
except possibly its last one is neither a `MandatoryBreak` nor a
`DiscretionaryBreak` candidate, so no further splitting is attempted. -/
theorem linebreak_fill_budget (tokens : List Token) (line_length : Nat) :
    ∀ line ∈ linebreak_fill tokens line_length,
      line.length ≤ line_length ∨
      (line_length < line.length ∧
        ∃ a b, a ≤ b ∧ b ≤ tokens.length ∧
          line = lineFromTokens (slice tokens a b) ∧
          noBreakTok (slice tokens a b).dropLast) := by
  intro line hline
  obtain ⟨pr, hmem, hpos, hrun⟩ :=
    linesOfSplits_spec tokens ((0, false) :: fillGo tokens line_length tokens 0 0) line hline
  have hgood := fillGo_invariant tokens line_length tokens 0 0 0 false rfl (le_refl 0)
    (Nat.zero_le _) (by simp) (Or.inl (by rw [slice_self]; exact noBreakTok_nil)) pr hmem
  obtain ⟨⟨_, hord⟩, hble, hdisj⟩ := hgood
  have hlen : line.length = sumLen (slice tokens pr.1.1 (pairEnd pr)) := by
    rw [hrun, lineFromTokens_length]
  by_cases hc : sumLen (slice tokens pr.1.1 (pairEnd pr)) ≤ line_length
  · left
    omega
  · right
    refine ⟨by omega, pr.1.1, pairEnd pr, hord, hble, hrun, ?_⟩
    rcases hdisj with hdisj | hdisj
    · exact absurd hdisj hc
    · exact hdisj

/-- Witness for C1 at a concrete input: `"foo" "␣" "bar"` at budget 3
splits into two lines, and the first emitted line satisfies the budget
disjunction. -/
theorem linebreak_fill_budget_witness :
    (lineFromTokens [wordTok "foo"]
        ∈ linebreak_fill [wordTok "foo", spaceTok, wordTok "bar"] 3) ∧
    ((lineFromTokens [wordTok "foo"]).length ≤ 3 ∨
      (3 < (lineFromTokens [wordTok "foo"]).length ∧
        ∃ a b, a ≤ b ∧
          b ≤ ([wordTok "foo", spaceTok, wordTok "bar"] : List Token).length ∧
          lineFromTokens [wordTok "foo"]
            = lineFromTokens (slice [wordTok "foo", spaceTok, wordTok "bar"] a b) ∧
          noBreakTok (slice [wordTok "foo", spaceTok, wordTok "bar"] a b).dropLast)) :=
  ⟨by decide,
    linebreak_fill_budget [wordTok "foo", spaceTok, wordTok "bar"] 3
      (lineFromTokens [wordTok "foo"]) (by decide)⟩


-- ======================================================================
-- C5: linebreak_balance against the claim's formulas
-- ======================================================================

theorem slice_ne_nil_iff {tokens : List Token} {p i : Nat} (hpi : p ≤ i)
    (hin : i ≤ tokens.length) : slice tokens p i ≠ [] ↔ i - p > 0 := by
  rw [← List.length_pos_iff_ne_nil, slice_length hpi hin]

theorem balanceGo_sync (tokens : List Token) (cutoff : Nat) :
    ∀ (rest : List Token) (i x p : Nat) (d : Bool) (acc : List Token),
      tokens.drop i = rest → p ≤ i →
      x = sumLen acc → acc = slice tokens p i →
      linesOfSplits tokens ((p, d) :: balanceGo cutoff tokens.length rest i x)
        = balanceClaimedGo cutoff acc rest := by
  intro rest
  induction rest with
  | nil =>
    intro i x p d acc hdrop hpi hx hacc
    have hni : tokens.length ≤ i := List.drop_eq_nil_iff.mp hdrop
    have hfull : acc = tokens.drop p := by rw [hacc, slice_of_ge hni]
    have hslice : slice tokens p tokens.length = acc := by
      rw [slice_of_ge (le_refl tokens.length), hfull]
    by_cases hguard : tokens.length - p > 0
    · have hne : acc ≠ [] := by
        rw [hfull, ← List.length_pos_iff_ne_nil, List.length_drop]
        omega
      simp only [balanceGo, linesOfSplits, balanceClaimedGo, hguard, if_true, if_false,
        Bool.false_eq_true, hne, ne_eq, not_false_eq_true, hslice]
    · have hne : acc = [] := by
        rw [hfull, List.drop_eq_nil_iff]
        omega
      simp only [balanceGo, linesOfSplits, balanceClaimedGo, hguard, if_false,
        Bool.false_eq_true, hne, ne_eq, not_true_eq_false]
  | cons t rest ih =>
    intro i x p d acc hdrop hpi hx hacc
    have hin : i < tokens.length := lt_length_of_drop_eq hdrop
    have hdrop' : tokens.drop (i + 1) = rest := drop_succ_of_drop_eq hdrop
    have hsnoc : slice tokens p (i + 1) = slice tokens p i ++ [t] := slice_snoc hdrop hpi
    have haccne : acc ≠ [] ↔ i - p > 0 := by
      rw [hacc]
      exact slice_ne_nil_iff hpi (Nat.le_of_lt hin)
    have hreset := ih (i + 1) 0 (i + 1) true [] hdrop' (le_refl _) rfl (slice_self tokens (i + 1)).symm
    cases hm : t.frm.mlb
    case true =>
      simp only [balanceGo, hm, if_true]
      simp only [linesOfSplits, Nat.add_sub_cancel]
      rw [ih (i + 1) 0 (i + 1) true [] hdrop' (le_refl _) rfl (slice_self tokens (i + 1)).symm]
      simp only [balanceClaimedGo, hm, if_true]
      by_cases hne : acc = []
      · have : ¬(i - p > 0) := by rw [← haccne]; simp [hne]
        simp [this, hne]
      · have : i - p > 0 := haccne.mp hne
        simp only [this, if_true, hne, ne_eq, not_false_eq_true, List.singleton_append]
        rw [hacc]
    case false =>
      cases hdlb : t.frm.dlb
      case false =>
        simp only [balanceGo, hm, hdlb, Bool.false_eq_true, if_false]
        rw [ih (i + 1) (x + t.length) p d (acc ++ [t]) hdrop'
          (Nat.le_succ_of_le hpi) (by simp [hx, sumLen_append]) (by rw [hsnoc, hacc])]
        simp only [balanceClaimedGo, hm, hdlb, Bool.false_eq_true, if_false]
      case true =>
        by_cases hcut : x + t.length ≥ cutoff
        · have hcut' : sumLen acc + t.length ≥ cutoff := by rw [← hx]; exact hcut
          simp only [balanceGo, hm, hdlb, Bool.false_eq_true, if_false, if_true, hcut]
          simp only [linesOfSplits]
          rw [ih (i + 1) 0 (i + 1) t.frm.dob [] hdrop' (le_refl _) rfl
            (slice_self tokens (i + 1)).symm]
          simp only [balanceClaimedGo, hm, hdlb, Bool.false_eq_true, if_false, if_true, hcut']
          cases hdob : t.frm.dob
          · have hgpos : i + 1 - p > 0 := by omega
            have hkne : acc ++ [t] ≠ [] := by simp
            simp only [if_false, Bool.false_eq_true, hgpos, if_true, hkne, ne_eq,
              not_false_eq_true, List.singleton_append]
            rw [hacc, ← hsnoc]
          · simp only [if_true, Nat.add_sub_cancel]
            by_cases hne : acc = []
            · have : ¬(i - p > 0) := by rw [← haccne]; simp [hne]
              simp [this, hne]
            · have : i - p > 0 := haccne.mp hne
              simp only [this, if_true, hne, ne_eq, not_false_eq_true, List.singleton_append]
              rw [hacc]
        · have hcut' : ¬(sumLen acc + t.length ≥ cutoff) := by rw [← hx]; exact hcut
          simp only [balanceGo, hm, hdlb, Bool.false_eq_true, if_false, if_true, hcut]
          rw [ih (i + 1) (x + t.length) p d (acc ++ [t]) hdrop'
            (Nat.le_succ_of_le hpi) (by simp [hx, sumLen_append]) (by rw [hsnoc, hacc])]
          simp only [balanceClaimedGo, hm, hdlb, Bool.false_eq_true, if_false, if_true, hcut']

/-- C5 (amended): `linebreak_balance` derives the target row count
`h = L / w + 1` and per-row cutoff `c = L / h` from the total token
length `L`, and breaks at a discretionary candidate exactly when the
accumulated width plus that token's length reaches or exceeds `c`
(mandatory breaks always split); this is stated as agreement with the
claim-worded model.  The claimed line count `⌈L/w⌉` does not hold in
general (see the counterexample). -/
theorem linebreak_balance_matches_claim_formulas (tokens : List Token) (w : Nat) :
    linebreak_balance tokens w = linebreak_balance_claimed tokens w := by
  simp only [linebreak_balance, linebreak_balance_claimed]
  exact balanceGo_sync tokens _ tokens 0 0 0 false [] rfl (le_refl 0) rfl
    (slice_self tokens 0).symm

/-- C5 counterexample: a single unbreakable word of length 4 at budget 2
yields one line, not `⌈L/w⌉ = 2` lines. -/
theorem linebreak_balance_count_counterexample :
    (linebreak_balance [wordTok "abcd"] 2).length = 1 ∧
    (sumLen [wordTok "abcd"] + 2 - 1) / 2 = 2 ∧
    (linebreak_balance [wordTok "abcd"] 2).length ≠ (sumLen [wordTok "abcd"] + 2 - 1) / 2 := by
  refine ⟨by decide, by decide, by decide⟩


-- ======================================================================
-- C6: linebreak_hang -- indent insertion and the budget schedule
-- ======================================================================

theorem hangLines_append (tokens : List Token) (ind : Segment) :
    ∀ (S : List (Nat × Bool)) (lines0 : List Line), lines0 ≠ [] →
      hangLines tokens ind S lines0
        = lines0 ++ (linesOfSplits tokens S).map
            (fun l => { l with segments := ind :: l.segments }) := by
  intro S
  induction S with
  | nil => intro lines0 h0; simp [hangLines, linesOfSplits]
  | cons s1 S ih =>
    intro lines0 h0
    cases S with
    | nil => simp [hangLines, linesOfSplits]
    | cons s2 rest =>
      by_cases hguard : (if s2.2 then s2.1 - 1 else s2.1) - s1.1 > 0
      · simp only [hangLines, linesOfSplits, hguard, if_true, h0, ne_eq,
          not_false_eq_true, List.map_cons]
        rw [ih (lines0 ++ [_]) (by simp)]
        simp
      · simp only [hangLines, linesOfSplits, hguard, if_false]
        exact ih lines0 h0

theorem hangLines_nil_acc (tokens : List Token) (ind : Segment) :
    ∀ (S : List (Nat × Bool)),
      hangLines tokens ind S []
        = (linesOfSplits tokens S).take 1 ++
            ((linesOfSplits tokens S).drop 1).map
              (fun l => { l with segments := ind :: l.segments }) := by
  intro S
  induction S with
  | nil => simp [hangLines, linesOfSplits]
  | cons s1 S ih =>
    cases S with
    | nil => simp [hangLines, linesOfSplits]
    | cons s2 rest =>
      by_cases hguard : (if s2.2 then s2.1 - 1 else s2.1) - s1.1 > 0
      · simp only [hangLines, linesOfSplits, hguard, if_true, ne_eq,
          not_true_eq_false, Bool.false_eq_true, if_false]
        rw [hangLines_append tokens ind _ _ (by simp)]
        simp
      · simp only [hangLines, linesOfSplits, hguard, if_false]
        exact ih

theorem hangGo_sync_phase2 (tokens : List Token) (ll : Nat) :
    ∀ (rest : List Token) (k i x p : Nat) (d : Bool) (acc : List Token), k ≠ 0 →
      tokens.drop i = rest → p ≤ i →
      x = sumLen acc → acc = slice tokens p i →
      linesOfSplits tokens ((p, d) :: hangGo tokens ll k rest i x)
        = fillClaimedGo ll acc rest := by
  intro rest
  induction rest with
  | nil =>
    intro k i x p d acc hk hdrop hpi hx hacc
    have hni : tokens.length ≤ i := List.drop_eq_nil_iff.mp hdrop
    have hfull : acc = tokens.drop p := by rw [hacc, slice_of_ge hni]
    have hslice : slice tokens p tokens.length = acc := by
      rw [slice_of_ge (le_refl tokens.length), hfull]
    by_cases hguard : tokens.length - p > 0
    · have hne : acc ≠ [] := by
        rw [hfull, ← List.length_pos_iff_ne_nil, List.length_drop]
        omega
      simp only [hangGo, linesOfSplits, fillClaimedGo, hguard, if_true, if_false,
        Bool.false_eq_true, hne, ne_eq, not_false_eq_true, hslice]
    · have hne : acc = [] := by
        rw [hfull, List.drop_eq_nil_iff]
        omega
      simp only [hangGo, linesOfSplits, fillClaimedGo, hguard, if_false,
        Bool.false_eq_true, hne, ne_eq, not_true_eq_false]
  | cons t rest ih =>
    intro k i x p d acc hk hdrop hpi hx hacc
    have hin : i < tokens.length := lt_length_of_drop_eq hdrop
    have hdrop' : tokens.drop (i + 1) = rest := drop_succ_of_drop_eq hdrop
    have hsnoc : slice tokens p (i + 1) = slice tokens p i ++ [t] := slice_snoc hdrop hpi
    have haccne : acc ≠ [] ↔ i - p > 0 := by
      rw [hacc]
      exact slice_ne_nil_iff hpi (Nat.le_of_lt hin)
    have hnwf : next_word_fits tokens ll i x = nwfScan ll (x + t.length) rest := by
      simp only [next_word_fits, hdrop]
    cases hm : t.frm.mlb
    case true =>
      simp only [hangGo, hm, if_true]
      simp only [linesOfSplits, Nat.add_sub_cancel]
      rw [ih (k + 1) (i + 1) 0 (i + 1) true [] (by omega) hdrop' (le_refl _) rfl
        (slice_self tokens (i + 1)).symm]
      simp only [fillClaimedGo, hm, if_true]
      by_cases hne : acc = []
      · have : ¬(i - p > 0) := by rw [← haccne]; simp [hne]
        simp [this, hne]
      · have : i - p > 0 := haccne.mp hne
        simp only [this, if_true, hne, ne_eq, not_false_eq_true, List.singleton_append]
        rw [hacc]
    case false =>
      cases hdlb : t.frm.dlb
      case false =>
        simp only [hangGo, hm, hdlb, Bool.false_eq_true, if_false]
        rw [ih k (i + 1) (x + t.length) p d (acc ++ [t]) hk hdrop'
          (Nat.le_succ_of_le hpi) (by simp [hx, sumLen_append]) (by rw [hsnoc, hacc])]
        simp only [fillClaimedGo, hm, hdlb, Bool.false_eq_true, if_false]
      case true =>
        cases hfit : next_word_fits tokens ll i x
        case false =>
          have hfit' : nwfScan ll (sumLen acc + t.length) rest = false := by
            rw [← hx, ← hnwf]
            exact hfit
          simp only [hangGo, hm, hdlb, hfit, Bool.false_eq_true, if_false, if_true,
            Bool.not_false, hk]
          simp only [linesOfSplits]
          rw [ih (k + 1) (i + 1) 0 (i + 1) t.frm.dob [] (by omega) hdrop' (le_refl _) rfl
            (slice_self tokens (i + 1)).symm]
          simp only [fillClaimedGo, hm, hdlb, Bool.false_eq_true, if_false, if_true,
            hfit', Bool.not_false]
          cases hdob : t.frm.dob
          · have hgpos : i + 1 - p > 0 := by omega
            have hkne : acc ++ [t] ≠ [] := by simp
            simp only [if_false, Bool.false_eq_true, hgpos, if_true, hkne, ne_eq,
              not_false_eq_true, List.singleton_append]
            rw [hacc, ← hsnoc]
          · simp only [if_true, Nat.add_sub_cancel]
            by_cases hne : acc = []
            · have : ¬(i - p > 0) := by rw [← haccne]; simp [hne]
              simp [this, hne]
            · have : i - p > 0 := haccne.mp hne
              simp only [this, if_true, hne, ne_eq, not_false_eq_true, List.singleton_append]
              rw [hacc]
        case true =>
          have hfit' : nwfScan ll (sumLen acc + t.length) rest = true := by
            rw [← hx, ← hnwf]
            exact hfit
          simp only [hangGo, hm, hdlb, hfit, Bool.false_eq_true, if_false, if_true,
            Bool.not_true]
          rw [ih k (i + 1) (x + t.length) p d (acc ++ [t]) hk hdrop'
            (Nat.le_succ_of_le hpi) (by simp [hx, sumLen_append]) (by rw [hsnoc, hacc])]
          simp only [fillClaimedGo, hm, hdlb, Bool.false_eq_true, if_false, if_true,
            hfit', Bool.not_true]

theorem hangGo_sync_phase1 (tokens : List Token) (w : Nat) :
    ∀ (rest : List Token) (i x p : Nat) (d : Bool) (acc : List Token),
      tokens.drop i = rest → p ≤ i →
      x = sumLen acc → acc = slice tokens p i →
      linesOfSplits tokens ((p, d) :: hangGo tokens w 0 rest i x)
        = hangClaimedGo w
            (if firstSplitIsDLB w rest x then w - min INDENT (w - 1) else w) acc rest := by
  intro rest
  induction rest with
  | nil =>
    intro i x p d acc hdrop hpi hx hacc
    have hni : tokens.length ≤ i := List.drop_eq_nil_iff.mp hdrop
    have hfull : acc = tokens.drop p := by rw [hacc, slice_of_ge hni]
    have hslice : slice tokens p tokens.length = acc := by
      rw [slice_of_ge (le_refl tokens.length), hfull]
    by_cases hguard : tokens.length - p > 0
    · have hne : acc ≠ [] := by
        rw [hfull, ← List.length_pos_iff_ne_nil, List.length_drop]
        omega
      simp only [hangGo, linesOfSplits, hangClaimedGo, hguard, if_true, if_false,
        Bool.false_eq_true, hne, ne_eq, not_false_eq_true, hslice]
    · have hne : acc = [] := by
        rw [hfull, List.drop_eq_nil_iff]
        omega
      simp only [hangGo, linesOfSplits, hangClaimedGo, hguard, if_false,
        Bool.false_eq_true, hne, ne_eq, not_true_eq_false]
  | cons t rest ih =>
    intro i x p d acc hdrop hpi hx hacc
    have hin : i < tokens.length := lt_length_of_drop_eq hdrop
    have hdrop' : tokens.drop (i + 1) = rest := drop_succ_of_drop_eq hdrop
    have hsnoc : slice tokens p (i + 1) = slice tokens p i ++ [t] := slice_snoc hdrop hpi
    have haccne : acc ≠ [] ↔ i - p > 0 := by
      rw [hacc]
      exact slice_ne_nil_iff hpi (Nat.le_of_lt hin)
    have hnwf : next_word_fits tokens w i x = nwfScan w (x + t.length) rest := by
      simp only [next_word_fits, hdrop]
    cases hm : t.frm.mlb
    case true =>
      -- a mandatory first split: no budget reduction ever happens
      simp only [hangGo, hm, if_true, firstSplitIsDLB, Bool.false_eq_true, if_false]
      simp only [linesOfSplits, Nat.add_sub_cancel]
      rw [hangGo_sync_phase2 tokens w rest 1 (i + 1) 0 (i + 1) true [] (by omega) hdrop'
        (le_refl _) rfl (slice_self tokens (i + 1)).symm]
      simp only [hangClaimedGo, hm, if_true]
      by_cases hne : acc = []
      · have : ¬(i - p > 0) := by rw [← haccne]; simp [hne]
        simp [this, hne]
      · have : i - p > 0 := haccne.mp hne
        simp only [this, if_true, hne, ne_eq, not_false_eq_true, List.singleton_append]
        rw [hacc]
    case false =>
      cases hdlb : t.frm.dlb
      case false =>
        simp only [hangGo, hm, hdlb, Bool.false_eq_true, if_false, firstSplitIsDLB]
        rw [ih (i + 1) (x + t.length) p d (acc ++ [t]) hdrop'
          (Nat.le_succ_of_le hpi) (by simp [hx, sumLen_append]) (by rw [hsnoc, hacc])]
        simp only [hangClaimedGo, hm, hdlb, Bool.false_eq_true, if_false]
      case true =>
        cases hfit : next_word_fits tokens w i x
        case false =>
          -- a discretionary first split: the budget is reduced
          have hfit' : nwfScan w (sumLen acc + t.length) rest = false := by
            rw [← hx, ← hnwf]
            exact hfit
          have hfitx : nwfScan w (x + t.length) rest = false := by
            rw [← hnwf]
            exact hfit
          simp only [hangGo, hm, hdlb, hfit, Bool.false_eq_true, if_false, if_true,
            Bool.not_false, if_pos rfl, firstSplitIsDLB, hfitx]
          simp only [linesOfSplits]
          rw [hangGo_sync_phase2 tokens (w - min INDENT (w - 1)) rest 1 (i + 1) 0 (i + 1)
            t.frm.dob [] (by omega) hdrop' (le_refl _) rfl (slice_self tokens (i + 1)).symm]
          simp only [hangClaimedGo, hm, hdlb, Bool.false_eq_true, if_false, if_true,
            hfit', Bool.not_false]
          cases hdob : t.frm.dob
          · have hgpos : i + 1 - p > 0 := by omega
            have hkne : acc ++ [t] ≠ [] := by simp
            simp only [if_false, Bool.false_eq_true, hgpos, if_true, hkne, ne_eq,
              not_false_eq_true, List.singleton_append]
            rw [hacc, ← hsnoc]
          · simp only [if_true, Nat.add_sub_cancel]
            by_cases hne : acc = []
            · have : ¬(i - p > 0) := by rw [← haccne]; simp [hne]
              simp [this, hne]
            · have : i - p > 0 := haccne.mp hne
              simp only [this, if_true, hne, ne_eq, not_false_eq_true, List.singleton_append]
              rw [hacc]
        case true =>
          have hfit' : nwfScan w (sumLen acc + t.length) rest = true := by
            rw [← hx, ← hnwf]
            exact hfit
          have hfitx : nwfScan w (x + t.length) rest = true := by
            rw [← hnwf]
            exact hfit
          simp only [hangGo, hm, hdlb, hfit, Bool.false_eq_true, if_false, if_true,
            Bool.not_true, firstSplitIsDLB, hfitx]
          rw [ih (i + 1) (x + t.length) p d (acc ++ [t]) hdrop'
            (Nat.le_succ_of_le hpi) (by simp [hx, sumLen_append]) (by rw [hsnoc, hacc])]
          simp only [hangClaimedGo, hm, hdlb, Bool.false_eq_true, if_false, if_true,
            hfit', Bool.not_true]

/-- C6 (amended): `linebreak_hang` agrees with the claim-worded model in
which the first line is broken against the full budget, the budget is
reduced by `min INDENT (budget - 1)` at the first split only when that
split is discretionary (a mandatory first break leaves the budget
unreduced for all subsequent lines), and every emitted line after the
first is prepended with the indent segment. -/
theorem linebreak_hang_matches_amended (tokens : List Token) (w : Nat) :
    linebreak_hang tokens w = linebreak_hang_amended tokens w := by
  simp only [linebreak_hang, linebreak_hang_amended]
  rw [hangLines_nil_acc]
  rw [hangGo_sync_phase1 tokens w tokens 0 0 0 false [] rfl (le_refl 0) rfl
    (slice_self tokens 0).symm]
  cases hcg : hangClaimedGo w (if firstSplitIsDLB w tokens 0 then w - min INDENT (w - 1) else w)
      [] tokens with
  | nil => simp
  | cons l ls => simp

/-- C6 counterexample: with tokens `"abc" <br> "abcdef" "␣" "abcdef"`
and budget 13 the first break is mandatory; the implementation never
reduces the budget, so `"abcdef abcdef"` (width 13) stays on one line
and two lines are emitted, while the claim's reading (reduce the budget
after the first break regardless of its kind) would emit three. -/
theorem linebreak_hang_reduction_counterexample :
    (linebreak_hang
      [wordTok "abc", breakTok, wordTok "abcdef", spaceTok, wordTok "abcdef"] 13).length = 2 ∧
    (linebreak_hang_claimed
      [wordTok "abc", breakTok, wordTok "abcdef", spaceTok, wordTok "abcdef"] 13).length = 3 := by
  refine ⟨by decide, by decide⟩


-- ======================================================================
-- C9: totality of the core transforms over the checked embeddings
-- ======================================================================

theorem linesOfSplitsChk_eq (tokens : List Token) :
    ∀ S : List (Nat × Bool), (∀ pr ∈ pairsOf S, orderedPair pr) →
      linesOfSplitsChk tokens S = some (linesOfSplits tokens S) := by
  intro S
  induction S with
  | nil => intro _; rfl
  | cons s1 S ih =>
    intro hord
    cases S with
    | nil => rfl
    | cons s2 rest =>
      have h12 : orderedPair (s1, s2) := hord _ (by simp [pairsOf_cons₂])
      have htl := ih (fun pr hpr => hord pr (by simp [pairsOf_cons₂, hpr]))
      obtain ⟨hdisc, hle⟩ := h12
      cases hs2 : s2.2
      case false =>
        simp only [pairEnd, hs2, Bool.false_eq_true, if_false] at hle
        simp only [linesOfSplitsChk, linesOfSplits, hs2, Bool.false_eq_true, if_false,
          hle, if_true, htl]
        by_cases hguard : s2.1 - s1.1 > 0
        · simp [hguard]
        · simp [hguard]
      case true =>
        have h1 : 1 ≤ s2.1 := hdisc hs2
        simp only [pairEnd, hs2, if_true] at hle
        simp only [linesOfSplitsChk, linesOfSplits, hs2, if_true, h1, hle, htl]
        by_cases hguard : s2.1 - 1 - s1.1 > 0
        · simp [hguard]
        · simp [hguard]

theorem fillGo_ordered (tokens : List Token) (line_length : Nat) :
    ∀ pr ∈ pairsOf ((0, false) :: fillGo tokens line_length tokens 0 0), orderedPair pr :=
  fun pr hpr =>
    (fillGo_invariant tokens line_length tokens 0 0 0 false rfl (le_refl 0)
      (Nat.zero_le _) (by simp) (Or.inl (by rw [slice_self]; exact noBreakTok_nil)) pr hpr).1

theorem balanceGo_ordered (tokens : List Token) (cutoff : Nat) :
    ∀ (rest : List Token) (i x p : Nat) (d : Bool),
      tokens.drop i = rest → p ≤ i → p ≤ tokens.length →
      ∀ pr ∈ pairsOf ((p, d) :: balanceGo cutoff tokens.length rest i x), orderedPair pr := by
  intro rest
  induction rest with
  | nil =>
    intro i x p d hdrop hpi hpn pr hpr
    simp only [balanceGo, pairsOf_cons₂, pairsOf_single, List.mem_singleton] at hpr
    subst hpr
    exact ⟨fun hfalse => absurd hfalse (by simp), by simpa [pairEnd] using hpn⟩
  | cons t rest ih =>
    intro i x p d hdrop hpi hpn pr hpr
    have hin : i < tokens.length := lt_length_of_drop_eq hdrop
    have hdrop' : tokens.drop (i + 1) = rest := drop_succ_of_drop_eq hdrop
    cases hm : t.frm.mlb
    case true =>
      simp only [balanceGo, hm, if_true, pairsOf_cons₂, List.mem_cons] at hpr
      rcases hpr with hpr | hpr
      · subst hpr
        exact ⟨fun _ => Nat.le_add_left 1 i, by simpa [pairEnd] using hpi⟩
      · exact ih (i + 1) 0 (i + 1) true hdrop' (le_refl _) hin pr hpr
    case false =>
      cases hdlb : t.frm.dlb
      case false =>
        simp only [balanceGo, hm, hdlb, Bool.false_eq_true, if_false] at hpr
        exact ih (i + 1) (x + t.length) p d hdrop' (Nat.le_succ_of_le hpi) hpn pr hpr
      case true =>
        by_cases hcut : x + t.length ≥ cutoff
        · simp only [balanceGo, hm, hdlb, Bool.false_eq_true, if_false, if_true, hcut,
            pairsOf_cons₂, List.mem_cons] at hpr
          rcases hpr with hpr | hpr
          · subst hpr
            refine ⟨fun _ => Nat.le_add_left 1 i, ?_⟩
            simp only [pairEnd]
            by_cases hdob : t.frm.dob = true <;> simp [hdob] <;> omega
          · exact ih (i + 1) 0 (i + 1) t.frm.dob hdrop' (le_refl _) hin pr hpr
        · simp only [balanceGo, hm, hdlb, Bool.false_eq_true, if_false, if_true, hcut] at hpr
          exact ih (i + 1) (x + t.length) p d hdrop' (Nat.le_succ_of_le hpi) hpn pr hpr

theorem hangGo_ordered (tokens : List Token) :
    ∀ (rest : List Token) (ll k i x p : Nat) (d : Bool),
      tokens.drop i = rest → p ≤ i → p ≤ tokens.length →
      ∀ pr ∈ pairsOf ((p, d) :: hangGo tokens ll k rest i x), orderedPair pr := by
  intro rest
  induction rest with
  | nil =>
    intro ll k i x p d hdrop hpi hpn pr hpr
    simp only [hangGo, pairsOf_cons₂, pairsOf_single, List.mem_singleton] at hpr
    subst hpr
    exact ⟨fun hfalse => absurd hfalse (by simp), by simpa [pairEnd] using hpn⟩
  | cons t rest ih =>
    intro ll k i x p d hdrop hpi hpn pr hpr
    have hin : i < tokens.length := lt_length_of_drop_eq hdrop
    have hdrop' : tokens.drop (i + 1) = rest := drop_succ_of_drop_eq hdrop
    cases hm : t.frm.mlb
    case true =>
      simp only [hangGo, hm, if_true, pairsOf_cons₂, List.mem_cons] at hpr
      rcases hpr with hpr | hpr
      · subst hpr
        exact ⟨fun _ => Nat.le_add_left 1 i, by simpa [pairEnd] using hpi⟩
      · exact ih ll (k + 1) (i + 1) 0 (i + 1) true hdrop' (le_refl _) hin pr hpr
    case false =>
      cases hdlb : t.frm.dlb
      case false =>
        simp only [hangGo, hm, hdlb, Bool.false_eq_true, if_false] at hpr
        exact ih ll k (i + 1) (x + t.length) p d hdrop' (Nat.le_succ_of_le hpi) hpn pr hpr
      case true =>
        cases hfit : next_word_fits tokens ll i x
        case false =>
          simp only [hangGo, hm, hdlb, hfit, Bool.false_eq_true, if_false, if_true,
            Bool.not_false, pairsOf_cons₂, List.mem_cons] at hpr
          rcases hpr with hpr | hpr
          · subst hpr
            refine ⟨fun _ => Nat.le_add_left 1 i, ?_⟩
            simp only [pairEnd]
            by_cases hdob : t.frm.dob = true <;> simp [hdob] <;> omega
          · exact ih _ (k + 1) (i + 1) 0 (i + 1) t.frm.dob hdrop' (le_refl _) hin pr hpr
        case true =>
          simp only [hangGo, hm, hdlb, hfit, Bool.false_eq_true, if_false, if_true,
            Bool.not_true] at hpr
          exact ih ll k (i + 1) (x + t.length) p d hdrop' (Nat.le_succ_of_le hpi) hpn pr hpr

theorem hangGoChk_eq (tokens : List Token) :
    ∀ (rest : List Token) (ll k i x : Nat), 1 ≤ ll →
      hangGoChk tokens ll k rest i x = some (hangGo tokens ll k rest i x) := by
  intro rest
  induction rest with
  | nil => intro ll k i x _; rfl
  | cons t rest ih =>
    intro ll k i x hll
    cases hm : t.frm.mlb
    case true =>
      simp only [hangGoChk, hangGo, hm, if_true, ih ll (k + 1) (i + 1) 0 hll,
        Option.map_some']
    case false =>
      cases hdlb : t.frm.dlb
      case false =>
        simp only [hangGoChk, hangGo, hm, hdlb, Bool.false_eq_true, if_false]
        exact ih ll k (i + 1) (x + t.length) hll
      case true =>
        cases hfit : next_word_fits tokens ll i x
        case false =>
          have hred : 1 ≤ ll - min INDENT (ll - 1) := by
            have : min INDENT (ll - 1) ≤ ll - 1 := Nat.min_le_right _ _
            omega
          by_cases hk : k = 0
          · simp only [hangGoChk, hangGo, hm, hdlb, hfit, Bool.false_eq_true, if_false,
              if_true, Bool.not_false, hk, hll,
              ih (ll - min INDENT (ll - 1)) (0 + 1) (i + 1) 0 hred, Option.map_some']
          · simp only [hangGoChk, hangGo, hm, hdlb, hfit, Bool.false_eq_true, if_false,
              if_true, Bool.not_false, hk, ih ll (k + 1) (i + 1) 0 hll,
              Option.map_some']
        case true =>
          simp only [hangGoChk, hangGo, hm, hdlb, hfit, Bool.false_eq_true, if_false,
            if_true, Bool.not_true]
          exact ih ll k (i + 1) (x + t.length) hll

/-- C9 (amended): over the checked embeddings, `linebreak_fill` returns
normally for every token list and budget; `linebreak_balance` and
`linebreak_hang` return normally for every token list and every budget
of at least 1 (at budget 0 the former divides by zero and the latter
underflows `line_length - 1`); and `Block::count_lines` returns
normally for every block that is single-spaced or has at least one line
(on an empty double-spaced block `lines.len() * 2 - 1` underflows). -/
theorem core_transforms_total :
    (∀ (tokens : List Token) (w : Nat), (linebreak_fill_chk tokens w).isSome) ∧
    (∀ (tokens : List Token) (w : Nat), 1 ≤ w → (linebreak_balance_chk tokens w).isSome) ∧
    (∀ (tokens : List Token) (w : Nat), 1 ≤ w → (linebreak_hang_chk tokens w).isSome) ∧
    (∀ b : Block, (b.line_spacing = LineSpacing.Double → b.lines ≠ []) →
      b.count_lines_chk.isSome) := by
  refine ⟨?_, ?_, ?_, ?_⟩
  · intro tokens w
    rw [linebreak_fill_chk, linesOfSplitsChk_eq tokens _ (fillGo_ordered tokens w)]
    rfl
  · intro tokens w hw
    rw [linebreak_balance_chk, if_neg (by omega)]
    rw [linesOfSplitsChk_eq tokens _
      (balanceGo_ordered tokens _ tokens 0 0 0 false rfl (le_refl 0) (Nat.zero_le _))]
    rfl
  · intro tokens w hw
    have h1 := hangGoChk_eq tokens tokens w 0 0 0 hw
    have h2 := linesOfSplitsChk_eq tokens ((0, false) :: hangGo tokens w 0 tokens 0 0)
      (hangGo_ordered tokens tokens w 0 0 0 0 false rfl (le_refl 0) (Nat.zero_le _))
    simp [linebreak_hang_chk, h1, h2]
  · intro b hb
    cases hsp : b.line_spacing
    case Single => simp [Block.count_lines_chk, hsp]
    case Double =>
      have hne : b.lines ≠ [] := hb hsp
      have : 1 ≤ b.lines.length := List.length_pos.mpr hne
      simp only [Block.count_lines_chk, hsp]
      rw [if_pos (by omega)]
      rfl

/-- Witness for C9 at concrete inputs. -/
theorem core_transforms_total_witness :
    (linebreak_fill_chk [wordTok "foo", spaceTok, wordTok "bar"] 6).isSome ∧
    (linebreak_balance_chk [wordTok "foo", spaceTok, wordTok "bar"] 6).isSome ∧
    (linebreak_hang_chk [wordTok "garply", spaceTok, wordTok "waldo"] 11).isSome ∧
    (Block.mk [] [] LineSpacing.Single 0 0 none).count_lines_chk.isSome :=
  ⟨core_transforms_total.1 [wordTok "foo", spaceTok, wordTok "bar"] 6,
   core_transforms_total.2.1 [wordTok "foo", spaceTok, wordTok "bar"] 6 (by decide),
   core_transforms_total.2.2.1 [wordTok "garply", spaceTok, wordTok "waldo"] 11 (by decide),
   core_transforms_total.2.2.2 (Block.mk [] [] LineSpacing.Single 0 0 none)
     (fun h => nomatch h)⟩

/-- C9 counterexample: the claim fails as stated -- `linebreak_balance`
divides by zero at budget 0, `linebreak_hang` underflows
`line_length - 1` at budget 0 when the first discretionary split fails,
and `Block::count_lines` underflows on an empty double-spaced block. -/
theorem core_transforms_total_counterexample :
    linebreak_balance_chk [] 0 = none ∧
    linebreak_hang_chk [spaceTok] 0 = none ∧
    (Block.mk [] [] LineSpacing.Double 0 0 none).count_lines_chk = none :=
  ⟨rfl, rfl, rfl⟩


-- ======================================================================
-- Compositor infrastructure
-- ======================================================================

@[simp]
theorem Block.lines_mk (l : List Line) (f : List (String × List Block)) (sp : LineSpacing)
    (pb : Int) (pa : Nat) (tg : Option Tag) : (Block.mk l f sp pb pa tg).lines = l := rfl

@[simp]
theorem Block.footnotes_mk (l : List Line) (f : List (String × List Block)) (sp : LineSpacing)
    (pb : Int) (pa : Nat) (tg : Option Tag) : (Block.mk l f sp pb pa tg).footnotes = f := rfl

@[simp]
theorem Block.line_spacing_mk (l : List Line) (f : List (String × List Block))
    (sp : LineSpacing) (pb : Int) (pa : Nat) (tg : Option Tag) :
    (Block.mk l f sp pb pa tg).line_spacing = sp := rfl

@[simp]
theorem Block.padding_before_mk (l : List Line) (f : List (String × List Block))
    (sp : LineSpacing) (pb : Int) (pa : Nat) (tg : Option Tag) :
    (Block.mk l f sp pb pa tg).padding_before = pb := rfl

@[simp]
theorem Block.padding_after_mk (l : List Line) (f : List (String × List Block))
    (sp : LineSpacing) (pb : Int) (pa : Nat) (tg : Option Tag) :
    (Block.mk l f sp pb pa tg).padding_after = pa := rfl

@[simp]
theorem Block.tag_mk (l : List Line) (f : List (String × List Block)) (sp : LineSpacing)
    (pb : Int) (pa : Nat) (tg : Option Tag) : (Block.mk l f sp pb pa tg).tag = tg := rfl

/-- `composeLine` on a single-spaced line with no note references and
enough room on the current page just appends the line. -/
theorem composeLine_single_fits (s : Compositor) (l : Line) (i ph : Nat)
    (hr : l.note_refs = []) (hfoot : s.curPage.footer = [])
    (hroom : s.curPage.lines.length + 2 ≤ s.curPage.height) :
    s.composeLine l i ph LineSpacing.Single = s.pushContent (some l) := by
  have hrem : ¬(lineRemainder2 s.curPage < 1) := by
    simp only [lineRemainder2, hfoot, ne_eq, not_true_eq_false, if_false]
    omega
  simp [Compositor.composeLine, hr, hrem]

/-- `compose_block` on a single-spaced one-line block with no footnotes,
no note references and enough room just appends the line. -/
theorem compose_block_single_line (s : Compositor) (l : Line) (pb : Int) (pa : Nat)
    (tg : Option Tag) (hr : l.note_refs = []) (hfoot : s.curPage.footer = [])
    (hroom : s.curPage.lines.length + 2 ≤ s.curPage.height) :
    s.compose_block (Block.mk [l] [] LineSpacing.Single pb pa tg)
      = s.pushContent (some l) := by
  simp only [Compositor.compose_block, Block.footnotes_mk, List.foldl_nil, Block.lines_mk,
    Block.line_spacing_mk, List.enum, List.enumFrom, List.foldl_cons]
  rw [composeLine_single_fits s l 0 [l].length hr hfoot hroom]

-- ======================================================================
-- C3: padding collapse is max, not sum
-- ======================================================================

/-- C3: composing block A (padding-after `a`) then block B (non-negative
padding-before `b`) inserts exactly `max a b` blank rows between them --
never the sum.  Stated for two one-line single-spaced blocks that fit on
the first page (`a, b ≤ 51`). -/
theorem padding_collapse (a b : Nat) (la lb : Line)
    (ha : a ≤ 51) (hb : b ≤ 51) (hra : la.note_refs = []) (hrb : lb.note_refs = []) :
    let out := Compositor.run 1 false
      [Block.mk [la] [] LineSpacing.Single 0 a none,
       Block.mk [lb] [] LineSpacing.Single (b : Int) 0 none]
    out.donePages = [] ∧
    out.curPage.lines = [some la] ++ List.replicate (max a b) none ++ [some lb] := by
  intro out
  have hs0 : Compositor.run 1 false
      [Block.mk [la] [] LineSpacing.Single 0 a none,
       Block.mk [lb] [] LineSpacing.Single (b : Int) 0 none]
      = (((⟨none, [], ⟨1, 54, [], []⟩, [], 1, 2, false, 0⟩ : Compositor).compose
          (Block.mk [la] [] LineSpacing.Single 0 a none)).compose
          (Block.mk [lb] [] LineSpacing.Single (b : Int) 0 none)) := by
    simp [Compositor.run, Compositor.runLoop, TOP_LINE, BOTTOM_LINE]
  have hA : ((⟨none, [], ⟨1, 54, [], []⟩, [], 1, 2, false, 0⟩ : Compositor).compose
      (Block.mk [la] [] LineSpacing.Single 0 a none))
      = (⟨none, [], ⟨1, 54, [some la], []⟩, [], 1, 2, false, a⟩ : Compositor) := by
    simp only [Compositor.compose, Block.padding_before_mk]
    rw [if_neg (by omega)]
    simp only [Block.padding_after_mk, Int.toNat_zero, Nat.zero_max, max_self,
      Compositor.pushContentN, List.replicate_zero, List.append_nil]
    rw [compose_block_single_line _ la 0 a none hra rfl (by simp)]
    rfl
  have hmax : max b a ≤ 51 := Nat.max_le.mpr ⟨hb, ha⟩
  have hB : ((⟨none, [], ⟨1, 54, [some la], []⟩, [], 1, 2, false, a⟩ : Compositor).compose
      (Block.mk [lb] [] LineSpacing.Single (b : Int) 0 none))
      = (⟨none, [], ⟨1, 54, [some la] ++ List.replicate (max b a) none ++ [some lb], []⟩,
          [], 1, 2, false, 0⟩ : Compositor) := by
    simp only [Compositor.compose, Block.padding_before_mk]
    rw [if_neg (by omega)]
    simp only [Block.padding_after_mk, Int.toNat_natCast, Compositor.pushContentN]
    rw [compose_block_single_line _ lb (b : Int) 0 none hrb rfl
      (by simp [List.length_replicate]; omega)]
    simp [Compositor.pushContent]
  rw [show out = Compositor.run 1 false
      [Block.mk [la] [] LineSpacing.Single 0 a none,
       Block.mk [lb] [] LineSpacing.Single (b : Int) 0 none] from rfl, hs0, hA, hB]
  refine ⟨rfl, ?_⟩
  simp [Nat.max_comm a b]

/-- Witness for C3 at the claim's concrete instances: padding-after 2
then padding-before 3 gives exactly 3 blank rows, and 3 then 1 gives 3. -/
theorem padding_collapse_witness :
    ((Compositor.run 1 false
      [Block.mk [⟨0, [], []⟩] [] LineSpacing.Single 0 2 none,
       Block.mk [⟨10, [], []⟩] [] LineSpacing.Single (3 : Int) 0 none]).curPage.lines
      = [some ⟨0, [], []⟩] ++ List.replicate 3 none ++ [some ⟨10, [], []⟩]) ∧
    ((Compositor.run 1 false
      [Block.mk [⟨0, [], []⟩] [] LineSpacing.Single 0 3 none,
       Block.mk [⟨10, [], []⟩] [] LineSpacing.Single (1 : Int) 0 none]).curPage.lines
      = [some ⟨0, [], []⟩] ++ List.replicate 3 none ++ [some ⟨10, [], []⟩]) := by
  refine ⟨?_, ?_⟩
  · have h := (padding_collapse 2 3 ⟨0, [], []⟩ ⟨10, [], []⟩
      (by decide) (by decide) rfl rfl).2
    simpa using h
  · have h := (padding_collapse 3 1 ⟨0, [], []⟩ ⟨10, [], []⟩
      (by decide) (by decide) rfl rfl).2
    simpa using h


-- ======================================================================
-- C2: footnote overflow forces a page break
-- ======================================================================

/-- C2: in any compositor state whose current page has only 2 free
content rows, composing a line that references a pending footnote
requiring 5 footer rows starts a new page before placing either the
footnote or the line: the previous page is left untouched, and both the
footnote (in the footer) and the line (in the content area) land on the
new page; the consumed definition leaves the pending table. -/
theorem footnote_overflow_page_break (s : Compositor) (lab : String)
    (f1 f2 f3 f4 f5 l : Line)
    (hfree : s.curPage.lines.length + 2 = s.curPage.height)
    (hrefs : l.note_refs = [lab])
    (hfn : tblGet s.footnotes lab
      = some [Block.mk [f1, f2, f3, f4, f5] [] LineSpacing.Single 0 0 none]) :
    let s' := s.compose_block (Block.mk [l] [] LineSpacing.Single 0 0 none)
    s'.donePages = s.donePages ++ [s.curPage] ∧
    s'.curPage.lines = [some l] ∧
    s'.curPage.footer = [some f1, some f2, some f3, some f4, some f5] ∧
    tblGet s'.footnotes lab = none := by
  intro s'
  rcases s with ⟨c, dps, ⟨pno, ph, plines, pfooter⟩, fns, fp, npn, hstr, lpa⟩
  simp only at hfree hfn
  have hfh : footerHeightLoop fns [lab] 0 0 = 5 := by
    simp [footerHeightLoop, hfn, count_lines, List.enum, List.enumFrom, Block.count_lines]
  have hrem1 : lineRemainder1 ⟨pno, ph, plines, pfooter⟩ 5 < 1 := by
    simp only [lineRemainder1]
    split_ifs <;> simp <;> omega
  have hseq : s' = Compositor.compose_block
      ⟨c, dps, ⟨pno, ph, plines, pfooter⟩, fns, fp, npn, hstr, lpa⟩
      (Block.mk [l] [] LineSpacing.Single 0 0 none) := rfl
  rw [hseq]
  simp only [Compositor.compose_block, Block.footnotes_mk, List.foldl_nil, Block.lines_mk,
    Block.line_spacing_mk, List.enum, List.enumFrom, List.foldl_cons,
    Compositor.composeLine, hrefs, ne_eq, not_false_eq_true, if_true, hfh,
    reduceCtorEq, List.length_cons, List.length_nil]
  rw [if_pos hrem1]
  simp only [Compositor.start_a_new_page, TOP_LINE, BOTTOM_LINE,
    Compositor.placeFootnotes, List.foldl_cons, List.foldl_nil, Compositor.placeFnLabel]
  simp only [hfn]
  simp [Compositor.pushFnBlocks, List.enum, List.enumFrom, Compositor.pushFooter,
    lineRemainder2, Compositor.pushContent, tblGet_remove_self]


/-- Witness for C2 at a concrete state: a page with 52 of 54 rows used,
a pending 5-line footnote, and a line referencing it. -/
theorem footnote_overflow_page_break_witness :
    (Compositor.compose_block
      ⟨none, [], ⟨1, 54, List.replicate 52 none, []⟩,
        [("n1", [Block.mk [⟨1, [], []⟩, ⟨2, [], []⟩, ⟨3, [], []⟩, ⟨4, [], []⟩, ⟨5, [], []⟩]
          [] LineSpacing.Single 0 0 none])], 1, 2, false, 0⟩
      (Block.mk [⟨0, [], ["n1"]⟩] [] LineSpacing.Single 0 0 none)).donePages
        = [] ++ [⟨1, 54, List.replicate 52 none, []⟩] ∧
    (Compositor.compose_block
      ⟨none, [], ⟨1, 54, List.replicate 52 none, []⟩,
        [("n1", [Block.mk [⟨1, [], []⟩, ⟨2, [], []⟩, ⟨3, [], []⟩, ⟨4, [], []⟩, ⟨5, [], []⟩]
          [] LineSpacing.Single 0 0 none])], 1, 2, false, 0⟩
      (Block.mk [⟨0, [], ["n1"]⟩] [] LineSpacing.Single 0 0 none)).curPage.lines
        = [some ⟨0, [], ["n1"]⟩] ∧
    (Compositor.compose_block
      ⟨none, [], ⟨1, 54, List.replicate 52 none, []⟩,
        [("n1", [Block.mk [⟨1, [], []⟩, ⟨2, [], []⟩, ⟨3, [], []⟩, ⟨4, [], []⟩, ⟨5, [], []⟩]
          [] LineSpacing.Single 0 0 none])], 1, 2, false, 0⟩
      (Block.mk [⟨0, [], ["n1"]⟩] [] LineSpacing.Single 0 0 none)).curPage.footer
        = [some ⟨1, [], []⟩, some ⟨2, [], []⟩, some ⟨3, [], []⟩, some ⟨4, [], []⟩,
           some ⟨5, [], []⟩] ∧
    tblGet (Compositor.compose_block
      ⟨none, [], ⟨1, 54, List.replicate 52 none, []⟩,
        [("n1", [Block.mk [⟨1, [], []⟩, ⟨2, [], []⟩, ⟨3, [], []⟩, ⟨4, [], []⟩, ⟨5, [], []⟩]
          [] LineSpacing.Single 0 0 none])], 1, 2, false, 0⟩
      (Block.mk [⟨0, [], ["n1"]⟩] [] LineSpacing.Single 0 0 none)).footnotes "n1" = none :=
  footnote_overflow_page_break
    ⟨none, [], ⟨1, 54, List.replicate 52 none, []⟩,
      [("n1", [Block.mk [⟨1, [], []⟩, ⟨2, [], []⟩, ⟨3, [], []⟩, ⟨4, [], []⟩, ⟨5, [], []⟩]
        [] LineSpacing.Single 0 0 none])], 1, 2, false, 0⟩
    "n1" ⟨1, [], []⟩ ⟨2, [], []⟩ ⟨3, [], []⟩ ⟨4, [], []⟩ ⟨5, [], []⟩ ⟨0, [], ["n1"]⟩
    (by decide) rfl rfl

-- ======================================================================
-- C10: a block's footnote definitions replace pending same-label
-- definitions before any of its lines is composed
-- ======================================================================

/-- C10: transferring a block's footnote definitions into the pending
table replaces any earlier definition under the same label (part one:
for a line-less block the new definition is what the table then holds,
whatever was pending before); and the transfer happens before any line
of the block is composed, so a line of the same block referencing the
label consumes the new definition -- the footer receives the new
definition's rows and the label leaves the table, so the earlier
definition is never emitted (part two). -/
theorem footnote_redefinition_replaces :
    (∀ (s : Compositor) (lab : String) (fnNew : List Block) (sp : LineSpacing)
        (pb : Int) (pa : Nat) (tg : Option Tag),
      tblGet (s.compose_block (Block.mk [] [(lab, fnNew)] sp pb pa tg)).footnotes lab
        = some fnNew) ∧
    (∀ (c : Option Block) (dps : List Page) (pno : Int) (t : FnTable) (fp npn : Int)
        (hstr : Bool) (lpa : Nat) (lab : String) (fnOld : List Block) (g l : Line),
      tblGet t lab = some fnOld →
      l.note_refs = [lab] →
      let s : Compositor := ⟨c, dps, ⟨pno, 54, [], []⟩, t, fp, npn, hstr, lpa⟩
      let s' := s.compose_block (Block.mk [l]
        [(lab, [Block.mk [g] [] LineSpacing.Single 0 0 none])] LineSpacing.Single 0 0 none)
      s'.donePages = dps ∧
      s'.curPage.lines = [some l] ∧
      s'.curPage.footer = [some g] ∧
      tblGet s'.footnotes lab = none) := by
  constructor
  · intro s lab fnNew sp pb pa tg
    simp [Compositor.compose_block]
  · intro c dps pno t fp npn hstr lpa lab fnOld g l hold hrefs s0 s'
    have hfh : footerHeightLoop (tblInsert t lab [Block.mk [g] [] LineSpacing.Single 0 0 none])
        [lab] 0 0 = 1 := by
      simp [footerHeightLoop, tblGet_insert_self, count_lines, List.enum, List.enumFrom,
        Block.count_lines]
    have hrem1 : ¬(lineRemainder1 (⟨pno, 54, [], []⟩ : Page) 1 < 1) := by
      simp [lineRemainder1]
    have hseq : s' = Compositor.compose_block ⟨c, dps, ⟨pno, 54, [], []⟩, t, fp, npn, hstr, lpa⟩
        (Block.mk [l] [(lab, [Block.mk [g] [] LineSpacing.Single 0 0 none])]
          LineSpacing.Single 0 0 none) := rfl
    rw [hseq]
    simp only [Compositor.compose_block, Block.footnotes_mk, List.foldl_cons, List.foldl_nil,
      Block.lines_mk, Block.line_spacing_mk, List.enum, List.enumFrom,
      Compositor.composeLine, hrefs, ne_eq, not_false_eq_true, if_true, hfh]
    rw [if_neg hrem1]
    simp only [Compositor.placeFootnotes, List.foldl_cons, List.foldl_nil,
      Compositor.placeFnLabel, tblGet_insert_self]
    simp [Compositor.pushFnBlocks, List.enum, List.enumFrom, Compositor.pushFooter,
      lineRemainder2, Compositor.pushContent, tblGet_remove_self]

/-- Witness for C10's hypothesis-bearing part at a concrete state. -/
theorem footnote_redefinition_replaces_witness :
    let s : Compositor := ⟨none, [], ⟨1, 54, [], []⟩,
      [("n1", [Block.mk [⟨7, [], []⟩] [] LineSpacing.Single 0 0 none])], 1, 2, false, 0⟩
    let s' := s.compose_block (Block.mk [⟨0, [], ["n1"]⟩]
      [("n1", [Block.mk [⟨8, [], []⟩] [] LineSpacing.Single 0 0 none])]
      LineSpacing.Single 0 0 none)
    s'.donePages = [] ∧
    s'.curPage.lines = [some ⟨0, [], ["n1"]⟩] ∧
    s'.curPage.footer = [some ⟨8, [], []⟩] ∧
    tblGet s'.footnotes "n1" = none :=
  footnote_redefinition_replaces.2 none [] 1
    [("n1", [Block.mk [⟨7, [], []⟩] [] LineSpacing.Single 0 0 none])] 1 2 false 0
    "n1" [Block.mk [⟨7, [], []⟩] [] LineSpacing.Single 0 0 none] ⟨8, [], []⟩
    ⟨0, [], ["n1"]⟩ rfl rfl


-- ======================================================================
-- Observable-preservation lemmas for the compositor primitives
-- ======================================================================

@[simp]
theorem start_a_new_page_footnotes (s : Compositor) :
    s.start_a_new_page.footnotes = s.footnotes := rfl

@[simp]
theorem pushContent_footnotes (s : Compositor) (r : Option Line) :
    (s.pushContent r).footnotes = s.footnotes := rfl

@[simp]
theorem pushContentN_footnotes (s : Compositor) (n : Nat) :
    (s.pushContentN n).footnotes = s.footnotes := rfl

@[simp]
theorem pushFooter_footnotes (s : Compositor) (r : Option Line) :
    (s.pushFooter r).footnotes = s.footnotes := rfl

theorem filterMap_id_replicate_none {α : Type} (n : Nat) :
    (List.replicate n (none : Option α)).filterMap id = [] := by
  induction n with
  | zero => rfl
  | succ n ih => simp [List.replicate, ih]

@[simp]
theorem contentFlat_start_a_new_page (s : Compositor) :
    contentFlat s.start_a_new_page = contentFlat s := by
  simp [contentFlat, Compositor.start_a_new_page, pageContent]

@[simp]
theorem footerFlat_start_a_new_page (s : Compositor) :
    footerFlat s.start_a_new_page = footerFlat s := by
  simp [footerFlat, Compositor.start_a_new_page]

@[simp]
theorem contentFlat_pushContent_some (s : Compositor) (l : Line) :
    contentFlat (s.pushContent (some l)) = contentFlat s ++ [l] := by
  simp [contentFlat, Compositor.pushContent, pageContent]

@[simp]
theorem contentFlat_pushContent_none (s : Compositor) :
    contentFlat (s.pushContent none) = contentFlat s := by
  simp [contentFlat, Compositor.pushContent, pageContent]

@[simp]
theorem contentFlat_pushContentN (s : Compositor) (n : Nat) :
    contentFlat (s.pushContentN n) = contentFlat s := by
  simp [contentFlat, Compositor.pushContentN, pageContent, List.filterMap_append,
    filterMap_id_replicate_none]

@[simp]
theorem contentFlat_pushFooter (s : Compositor) (r : Option Line) :
    contentFlat (s.pushFooter r) = contentFlat s := by
  simp [contentFlat, Compositor.pushFooter, pageContent]

@[simp]
theorem footerFlat_pushContent (s : Compositor) (r : Option Line) :
    footerFlat (s.pushContent r) = footerFlat s := by
  simp [footerFlat, Compositor.pushContent]

@[simp]
theorem footerFlat_pushContentN (s : Compositor) (n : Nat) :
    footerFlat (s.pushContentN n) = footerFlat s := by
  simp [footerFlat, Compositor.pushContentN]

@[simp]
theorem footerFlat_pushFooter (s : Compositor) (r : Option Line) :
    footerFlat (s.pushFooter r) = footerFlat s ++ [r] := by
  simp [footerFlat, Compositor.pushFooter]

theorem foldl_pred_preserve {α β : Type} (f : β → α → β) (P : β → Prop) :
    ∀ (l : List α) (s : β), (∀ s a, a ∈ l → P s → P (f s a)) → P s → P (l.foldl f s) := by
  intro l
  induction l with
  | nil => intro s _ hs; exact hs
  | cons a l ih =>
    intro s hstep hs
    exact ih (f s a) (fun s' b hb => hstep s' b (by simp [hb])) (hstep s a (by simp) hs)

theorem snd_mem_of_mem_enum {α : Type} {l : List α} {p : Nat × α} (h : p ∈ l.enum) :
    p.2 ∈ l := by
  rw [List.mem_enum_iff_getElem?] at h
  exact List.getElem?_mem h

theorem pushFnBlocks_footnotes (s : Compositor) (bs : List Block) :
    (s.pushFnBlocks bs).footnotes = s.footnotes := by
  refine foldl_pred_preserve _ (fun s' : Compositor => s'.footnotes = s.footnotes) _ s ?_ rfl
  intro s' jb _ hP
  refine foldl_pred_preserve _ (fun s'' : Compositor => s''.footnotes = s.footnotes) _ s' ?_ hP
  intro s'' kl _ hP'
  by_cases hc : (jb.1 < bs.length - 1 ∨ kl.1 < jb.2.lines.length - 1) ∧
      jb.2.line_spacing = LineSpacing.Double
  · simp [hc, Compositor.pushFooter, hP']
  · simp [hc, Compositor.pushFooter, hP']

theorem placeFootnotes_unresolved :
    ∀ (refs : List String) (s : Compositor),
      (∀ lab ∈ refs, tblGet s.footnotes lab = none) → s.placeFootnotes refs = s := by
  intro refs
  induction refs with
  | nil => intro s _; rfl
  | cons lab refs ih =>
    intro s h
    have h1 : s.placeFnLabel lab = s := by
      simp [Compositor.placeFnLabel, h lab (by simp)]
    simp only [Compositor.placeFootnotes, List.foldl_cons, h1]
    exact ih s (fun l hl => h l (by simp [hl]))

theorem placeFnLabel_tblGet_ne (s : Compositor) (other lab : String) (hne : lab ≠ other) :
    tblGet (s.placeFnLabel other).footnotes lab = tblGet s.footnotes lab := by
  simp only [Compositor.placeFnLabel]
  cases h : tblGet s.footnotes other
  · rfl
  · by_cases hfoot : s.curPage.footer ≠ []
    · simp [hfoot, pushFnBlocks_footnotes, Compositor.pushFooter, tblGet_remove_ne _ _ _ hne]
    · simp [hfoot, pushFnBlocks_footnotes, tblGet_remove_ne _ _ _ hne]

theorem placeFootnotes_tblGet_not_mem :
    ∀ (refs : List String) (s : Compositor) (lab : String), lab ∉ refs →
      tblGet (s.placeFootnotes refs).footnotes lab = tblGet s.footnotes lab := by
  intro refs
  induction refs with
  | nil => intro s lab _; rfl
  | cons r refs ih =>
    intro s lab hmem
    have hne : lab ≠ r := fun h => hmem (by simp [h])
    simp only [Compositor.placeFootnotes, List.foldl_cons]
    have := ih (s.placeFnLabel r) lab (fun h => hmem (by simp [h]))
    simp only [Compositor.placeFootnotes] at this
    rw [this, placeFnLabel_tblGet_ne s r lab hne]

theorem composeLine_tblGet_not_ref (s : Compositor) (line : Line) (i ph : Nat)
    (sp : LineSpacing) (lab : String) (hmem : lab ∉ line.note_refs) :
    tblGet (s.composeLine line i ph sp).footnotes lab = tblGet s.footnotes lab := by
  simp only [Compositor.composeLine]
  by_cases h0 : line.note_refs ≠ []
  · rw [if_pos h0]
    set s1 := if lineRemainder1 s.curPage
        (footerHeightLoop s.footnotes line.note_refs 0 0) < 1
      then s.start_a_new_page else s with hs1
    have hfns1 : s1.footnotes = s.footnotes := by
      rw [hs1]
      split <;> rfl
    set s2 := s1.placeFootnotes line.note_refs with hs2
    have hfns2 : tblGet s2.footnotes lab = tblGet s.footnotes lab := by
      rw [hs2, placeFootnotes_tblGet_not_mem line.note_refs s1 lab hmem, hfns1]
    split <;> split <;> simp [hfns2]
  · rw [if_neg h0]
    split <;> split <;> simp

theorem compose_block_tblGet_preserved (s : Compositor) (b : Block) (lab : String)
    (hlines : ∀ l ∈ b.lines, lab ∉ l.note_refs)
    (hdefs : ∀ kv ∈ b.footnotes, kv.1 ≠ lab) :
    tblGet (s.compose_block b).footnotes lab = tblGet s.footnotes lab := by
  simp only [Compositor.compose_block]
  have htransfer : tblGet ((b.footnotes.foldl
      (fun s kv => { s with footnotes := tblInsert s.footnotes kv.1 kv.2 }) s)).footnotes lab
      = tblGet s.footnotes lab := by
    refine foldl_pred_preserve _
      (fun s' : Compositor => tblGet s'.footnotes lab = tblGet s.footnotes lab) _ s ?_ rfl
    intro s' kv hkv hP
    have : lab ≠ kv.1 := fun h => (hdefs kv hkv) h.symm
    simp [tblGet_insert_ne _ _ _ _ this, hP]
  refine foldl_pred_preserve _
    (fun s' : Compositor => tblGet s'.footnotes lab = tblGet s.footnotes lab) _ _ ?_ htransfer
  intro s' il hil hP
  rw [composeLine_tblGet_not_ref s' il.2 il.1 b.lines.length b.line_spacing lab
    (hlines il.2 (snd_mem_of_mem_enum hil)), hP]


theorem compose_unresolved_refs (s : Compositor) (l : Line)
    (h : ∀ lab ∈ l.note_refs, tblGet s.footnotes lab = none) :
    (s.compose_block (Block.mk [l] [] LineSpacing.Single 0 0 none)).footnotes = s.footnotes ∧
    footerFlat (s.compose_block (Block.mk [l] [] LineSpacing.Single 0 0 none)) = footerFlat s ∧
    contentFlat (s.compose_block (Block.mk [l] [] LineSpacing.Single 0 0 none))
      = contentFlat s ++ [l] := by
  have hseq : s.compose_block (Block.mk [l] [] LineSpacing.Single 0 0 none)
      = s.composeLine l 0 1 LineSpacing.Single := rfl
  rw [hseq]
  simp only [Compositor.composeLine]
  by_cases h0 : l.note_refs ≠ []
  · rw [if_pos h0]
    have hps : Compositor.placeFootnotes
        (if lineRemainder1 s.curPage (footerHeightLoop s.footnotes l.note_refs 0 0) < 1
          then s.start_a_new_page else s) l.note_refs
        = (if lineRemainder1 s.curPage (footerHeightLoop s.footnotes l.note_refs 0 0) < 1
          then s.start_a_new_page else s) := by
      apply placeFootnotes_unresolved
      intro lab hlab
      split
      · rw [start_a_new_page_footnotes]
        exact h lab hlab
      · exact h lab hlab
    rw [hps]
    split <;> split <;> simp
  · rw [if_neg h0]
    split <;> simp

theorem compose_consumes_label_once (c : Option Block) (dps : List Page) (pno : Int)
    (t : FnTable) (fp npn : Int) (hstr : Bool) (lpa : Nat) (lab : String) (g l1 l2 : Line)
    (hfn : tblGet t lab = some [Block.mk [g] [] LineSpacing.Single 0 0 none])
    (h1 : l1.note_refs = [lab]) (h2 : l2.note_refs = [lab]) :
    let s : Compositor := ⟨c, dps, ⟨pno, 54, [], []⟩, t, fp, npn, hstr, lpa⟩
    let s' := s.compose_block (Block.mk [l1, l2] [] LineSpacing.Single 0 0 none)
    s'.curPage.lines = [some l1, some l2] ∧
    s'.curPage.footer = [some g] ∧
    tblGet s'.footnotes lab = none ∧
    s'.donePages = dps := by
  intro s0 s'
  have hfh1 : footerHeightLoop t [lab] 0 0 = 1 := by
    simp [footerHeightLoop, hfn, count_lines, List.enum, List.enumFrom, Block.count_lines]
  have hrem1 : ¬(lineRemainder1 (⟨pno, 54, [], []⟩ : Page) 1 < 1) := by
    simp [lineRemainder1]
  have hstep1 : Compositor.composeLine ⟨c, dps, ⟨pno, 54, [], []⟩, t, fp, npn, hstr, lpa⟩
      l1 0 2 LineSpacing.Single
      = ⟨c, dps, ⟨pno, 54, [some l1], [some g]⟩, tblRemove t lab, fp, npn, hstr, lpa⟩ := by
    simp only [Compositor.composeLine, h1, ne_eq, not_false_eq_true, if_true, hfh1]
    rw [if_neg hrem1]
    simp only [Compositor.placeFootnotes, List.foldl_cons, List.foldl_nil,
      Compositor.placeFnLabel, hfn]
    simp [Compositor.pushFnBlocks, List.enum, List.enumFrom, Compositor.pushFooter,
      lineRemainder2, Compositor.pushContent]
  have hfh2 : footerHeightLoop (tblRemove t lab) [lab] 0 0 = 0 := by
    simp [footerHeightLoop, tblGet_remove_self]
  have hrem1' : ¬(lineRemainder1 (⟨pno, 54, [some l1], [some g]⟩ : Page) 0 < 1) := by
    simp [lineRemainder1]
  have hstep2 : Compositor.composeLine
      ⟨c, dps, ⟨pno, 54, [some l1], [some g]⟩, tblRemove t lab, fp, npn, hstr, lpa⟩
      l2 1 2 LineSpacing.Single
      = ⟨c, dps, ⟨pno, 54, [some l1, some l2], [some g]⟩, tblRemove t lab,
          fp, npn, hstr, lpa⟩ := by
    simp only [Compositor.composeLine, h2, ne_eq, not_false_eq_true, if_true, hfh2]
    rw [if_neg hrem1']
    simp only [Compositor.placeFootnotes, List.foldl_cons, List.foldl_nil,
      Compositor.placeFnLabel, tblGet_remove_self]
    simp [lineRemainder2, Compositor.pushContent]
  have hseq : s' = Compositor.composeLine (Compositor.composeLine s0 l1 0 2 LineSpacing.Single)
      l2 1 2 LineSpacing.Single := rfl
  rw [hseq]
  show _ ∧ _ ∧ _ ∧ _
  rw [show s0 = ⟨c, dps, ⟨pno, 54, [], []⟩, t, fp, npn, hstr, lpa⟩ from rfl, hstep1, hstep2]
  exact ⟨rfl, rfl, tblGet_remove_self t lab, rfl⟩

theorem compose_tblGet_preserved (s : Compositor) (b : Block) (lab : String)
    (hlines : ∀ l ∈ b.lines, lab ∉ l.note_refs)
    (hdefs : ∀ kv ∈ b.footnotes, kv.1 ≠ lab) :
    tblGet (s.compose b).footnotes lab = tblGet s.footnotes lab := by
  simp only [Compositor.compose]
  rw [compose_block_tblGet_preserved _ b lab hlines hdefs]
  split <;> rfl

theorem unreferenced_footnote_stays_pending (blocks : List Block) (s : Compositor)
    (lab : String) (fn : List Block)
    (hpending : tblGet s.footnotes lab = some fn)
    (hblocks : ∀ b ∈ blocks,
      (∀ l ∈ b.lines, lab ∉ l.note_refs) ∧ (∀ kv ∈ b.footnotes, kv.1 ≠ lab)) :
    tblGet (blocks.foldl Compositor.compose s).footnotes lab = some fn := by
  refine foldl_pred_preserve _ (fun s' : Compositor => tblGet s'.footnotes lab = some fn)
    blocks s ?_ hpending
  intro s' b hb hP
  rw [compose_tblGet_preserved s' b lab (hblocks b hb).1 (hblocks b hb).2, hP]

-- ======================================================================
-- C8: unresolved note references are not errors; a pending footnote is
-- consumed at first use; an unreferenced footnote is never emitted
-- ======================================================================

/-- C8: (a) composing a line whose note-reference labels have no pending
definition is not an error -- no footer content is placed anywhere, the
pending table is untouched, and the line is still composed into the
content flow; (b) a label referenced on two lines is rendered only where
first consumed: the definition leaves the table at first use, the second
reference places nothing, and the footer holds the footnote's rows
exactly once; (c) a pending definition whose label no composed line
references is never consumed -- it is still pending after the whole
block sequence, hence never emitted on any page. -/
theorem footnote_reference_resolution :
    (∀ (s : Compositor) (l : Line),
      (∀ lab ∈ l.note_refs, tblGet s.footnotes lab = none) →
      (s.compose_block (Block.mk [l] [] LineSpacing.Single 0 0 none)).footnotes
          = s.footnotes ∧
      footerFlat (s.compose_block (Block.mk [l] [] LineSpacing.Single 0 0 none))
          = footerFlat s ∧
      contentFlat (s.compose_block (Block.mk [l] [] LineSpacing.Single 0 0 none))
          = contentFlat s ++ [l]) ∧
    (∀ (c : Option Block) (dps : List Page) (pno : Int) (t : FnTable) (fp npn : Int)
        (hstr : Bool) (lpa : Nat) (lab : String) (g l1 l2 : Line),
      tblGet t lab = some [Block.mk [g] [] LineSpacing.Single 0 0 none] →
      l1.note_refs = [lab] → l2.note_refs = [lab] →
      let s : Compositor := ⟨c, dps, ⟨pno, 54, [], []⟩, t, fp, npn, hstr, lpa⟩
      let s' := s.compose_block (Block.mk [l1, l2] [] LineSpacing.Single 0 0 none)
      s'.curPage.lines = [some l1, some l2] ∧
      s'.curPage.footer = [some g] ∧
      tblGet s'.footnotes lab = none ∧
      s'.donePages = dps) ∧
    (∀ (blocks : List Block) (s : Compositor) (lab : String) (fn : List Block),
      tblGet s.footnotes lab = some fn →
      (∀ b ∈ blocks,
        (∀ l ∈ b.lines, lab ∉ l.note_refs) ∧ (∀ kv ∈ b.footnotes, kv.1 ≠ lab)) →
      tblGet (blocks.foldl Compositor.compose s).footnotes lab = some fn) :=
  ⟨compose_unresolved_refs, compose_consumes_label_once, unreferenced_footnote_stays_pending⟩

/-- Witness for C8 at concrete states: an unresolved reference on an
empty table, a label referenced by two consecutive lines, and a pending
footnote no line references. -/
theorem footnote_reference_resolution_witness :
    ((Compositor.compose_block ⟨none, [], ⟨1, 54, [], []⟩, [], 1, 2, false, 0⟩
        (Block.mk [⟨0, [], ["zz"]⟩] [] LineSpacing.Single 0 0 none)).footnotes = [] ∧
      footerFlat (Compositor.compose_block ⟨none, [], ⟨1, 54, [], []⟩, [], 1, 2, false, 0⟩
        (Block.mk [⟨0, [], ["zz"]⟩] [] LineSpacing.Single 0 0 none))
        = footerFlat ⟨none, [], ⟨1, 54, [], []⟩, [], 1, 2, false, 0⟩ ∧
      contentFlat (Compositor.compose_block ⟨none, [], ⟨1, 54, [], []⟩, [], 1, 2, false, 0⟩
        (Block.mk [⟨0, [], ["zz"]⟩] [] LineSpacing.Single 0 0 none))
        = contentFlat ⟨none, [], ⟨1, 54, [], []⟩, [], 1, 2, false, 0⟩ ++ [⟨0, [], ["zz"]⟩]) ∧
    (let s : Compositor := ⟨none, [], ⟨1, 54, [], []⟩,
        [("n1", [Block.mk [⟨9, [], []⟩] [] LineSpacing.Single 0 0 none])], 1, 2, false, 0⟩
      let s' := s.compose_block
        (Block.mk [⟨0, [], ["n1"]⟩, ⟨1, [], ["n1"]⟩] [] LineSpacing.Single 0 0 none)
      s'.curPage.lines = [some ⟨0, [], ["n1"]⟩, some ⟨1, [], ["n1"]⟩] ∧
      s'.curPage.footer = [some ⟨9, [], []⟩] ∧
      tblGet s'.footnotes "n1" = none ∧
      s'.donePages = []) ∧
    (tblGet (([Block.mk [⟨0, [], []⟩] [] LineSpacing.Single 0 0 none].foldl
        Compositor.compose ⟨none, [], ⟨1, 54, [], []⟩,
          [("n1", [Block.mk [⟨9, [], []⟩] [] LineSpacing.Single 0 0 none])],
          1, 2, false, 0⟩)).footnotes "n1"
      = some [Block.mk [⟨9, [], []⟩] [] LineSpacing.Single 0 0 none]) :=
  ⟨footnote_reference_resolution.1 ⟨none, [], ⟨1, 54, [], []⟩, [], 1, 2, false, 0⟩
      ⟨0, [], ["zz"]⟩ (fun lab _ => rfl),
   footnote_reference_resolution.2.1 none [] 1
      [("n1", [Block.mk [⟨9, [], []⟩] [] LineSpacing.Single 0 0 none])] 1 2 false 0
      "n1" ⟨9, [], []⟩ ⟨0, [], ["n1"]⟩ ⟨1, [], ["n1"]⟩ rfl rfl rfl,
   footnote_reference_resolution.2.2 [Block.mk [⟨0, [], []⟩] [] LineSpacing.Single 0 0 none]
      ⟨none, [], ⟨1, 54, [], []⟩,
        [("n1", [Block.mk [⟨9, [], []⟩] [] LineSpacing.Single 0 0 none])], 1, 2, false, 0⟩
      "n1" [Block.mk [⟨9, [], []⟩] [] LineSpacing.Single 0 0 none] rfl
      (by
        intro b hb
        rw [List.mem_singleton] at hb
        subst hb
        refine ⟨?_, ?_⟩
        · intro l hl
          simp only [Block.lines_mk, List.mem_singleton] at hl
          subst hl
          simp
        · intro kv hkv
          simp only [Block.footnotes_mk] at hkv
          cases hkv)⟩


-- ======================================================================
-- C7: block height accounting
-- ======================================================================

theorem renderedRows_length_single (ls : List Line) :
    (renderedRows LineSpacing.Single ls).length = ls.length := by
  simp [renderedRows]

theorem renderedRows_length_double (ls : List Line) :
    (renderedRows LineSpacing.Double ls).length = 2 * ls.length - 1 := by
  induction ls with
  | nil => rfl
  | cons l ls ih =>
    cases ls with
    | nil => rfl
    | cons l2 ls2 =>
      simp only [renderedRows, List.length_cons] at ih ⊢
      omega

/-- One step of the per-line loop for a line with no references on a
page with free room: just push the line, plus a blank row for double
spacing when the line is not the block's last. -/
theorem compose_block_rows (sp : LineSpacing) :
    ∀ (ls : List Line) (k ph : Nat) (s : Compositor),
      k + ls.length = ph →
      (∀ l ∈ ls, l.note_refs = []) →
      s.curPage.footer = [] →
      s.curPage.lines.length + (renderedRows sp ls).length + 1 ≤ s.curPage.height →
      (List.enumFrom k ls).foldl (fun s il => s.composeLine il.2 il.1 ph sp) s
        = { s with curPage :=
            { s.curPage with lines := s.curPage.lines ++ renderedRows sp ls } } := by
  intro ls
  induction ls with
  | nil =>
    intro k ph s _ _ _ _
    have h1 : renderedRows sp ([] : List Line) = [] := by cases sp <;> rfl
    rcases s with ⟨c, dps, ⟨pno, hh, plines, pfoot⟩, fns, fp, npn, hstr, lpa⟩
    simp [h1, List.enumFrom]
  | cons l ls ih =>
    intro k ph s hph hrefs hfoot hroom
    have hrefl : l.note_refs = [] := hrefs l (by simp)
    have hph' : k + ls.length + 1 = ph := by
      simp only [List.length_cons] at hph
      omega
    have hrr1 : 1 ≤ (renderedRows sp (l :: ls)).length := by
      cases sp
      · rw [renderedRows_length_single]
        simp
      · rw [renderedRows_length_double]
        simp only [List.length_cons]
        omega
    have hpush : s.composeLine l k ph sp
        = (if k < ph - 1 ∧ sp = LineSpacing.Double ∧
              (s.pushContent (some l)).curPage.height
                - (s.pushContent (some l)).curPage.lines.length > 1
          then (s.pushContent (some l)).pushContent none
          else s.pushContent (some l)) := by
      have hrem : ¬(lineRemainder2 s.curPage < 1) := by
        simp only [lineRemainder2, hfoot, ne_eq, not_true_eq_false, if_false]
        omega
      simp [Compositor.composeLine, hrefl, hrem]
    simp only [List.enumFrom, List.foldl_cons, hpush]
    cases sp
    case Single =>
      simp only [reduceCtorEq, false_and, and_false, if_false]
      rw [ih (k + 1) ph (s.pushContent (some l)) (by omega)
        (fun x hx => hrefs x (by simp [hx]))
        (by simp [Compositor.pushContent, hfoot])
        (by
          simp only [Compositor.pushContent, List.length_append, List.length_cons,
            List.length_nil, renderedRows_length_single] at hroom ⊢
          omega)]
      simp [Compositor.pushContent, renderedRows]
    case Double =>
      cases ls with
      | nil =>
        have hlast : ¬(k < ph - 1) := by
          simp only [List.length_nil] at hph'
          omega
        simp only [hlast, false_and, if_false, List.enumFrom, List.foldl_nil]
        simp [Compositor.pushContent, renderedRows]
      | cons l2 ls2 =>
        have hrr : renderedRows LineSpacing.Double (l :: l2 :: ls2)
            = some l :: none :: renderedRows LineSpacing.Double (l2 :: ls2) := rfl
        have hlenrr : (renderedRows LineSpacing.Double (l2 :: ls2)).length
            = 2 * (l2 :: ls2).length - 1 := renderedRows_length_double _
        have hcond : k < ph - 1 ∧ LineSpacing.Double = LineSpacing.Double ∧
            (s.pushContent (some l)).curPage.height
              - (s.pushContent (some l)).curPage.lines.length > 1 := by
          refine ⟨by simp only [List.length_cons] at hph'; omega, rfl, ?_⟩
          simp only [Compositor.pushContent, List.length_append, List.length_cons,
            List.length_nil]
          rw [hrr] at hroom
          simp only [List.length_cons] at hroom hlenrr
          omega
        rw [if_pos hcond]
        rw [ih (k + 1) ph ((s.pushContent (some l)).pushContent none)
          (by simp only [List.length_cons] at hph' ⊢; omega)
          (fun x hx => hrefs x (by simp [hx]))
          (by simp [Compositor.pushContent, hfoot])
          (by
            simp only [Compositor.pushContent, List.length_append, List.length_cons,
              List.length_nil]
            rw [hrr] at hroom
            simp only [List.length_cons] at hroom
            omega)]
        simp [Compositor.pushContent, hrr]

theorem transfer_preserves_pages (s : Compositor) (defs : List (String × List Block)) :
    (defs.foldl (fun s kv => { s with footnotes := tblInsert s.footnotes kv.1 kv.2 }) s).curPage
        = s.curPage ∧
    (defs.foldl (fun s kv => { s with footnotes := tblInsert s.footnotes kv.1 kv.2 }) s).donePages
        = s.donePages := by
  refine foldl_pred_preserve _
    (fun s' : Compositor => s'.curPage = s.curPage ∧ s'.donePages = s.donePages) _ s ?_
    ⟨rfl, rfl⟩
  intro s' kv _ hP
  exact hP

/-- C7: a block with `n` lines contributes `2n - 1` content rows when
double-spaced and `n` when single-spaced: `Block::count_lines` computes
exactly that number, the rendered rows have exactly that length, and
when the block is placed by the compositor on a page with enough free
room (no note references, empty footer) the current page gains exactly
those rows, with no new page started. -/
theorem block_height_accounting (s : Compositor) (b : Block)
    (hrefs : ∀ l ∈ b.lines, l.note_refs = [])
    (hfoot : s.curPage.footer = [])
    (hroom : s.curPage.lines.length + b.count_lines + 1 ≤ s.curPage.height) :
    (s.compose_block b).curPage.lines
        = s.curPage.lines ++ renderedRows b.line_spacing b.lines ∧
    (s.compose_block b).donePages = s.donePages ∧
    (renderedRows b.line_spacing b.lines).length = b.count_lines ∧
    b.count_lines = (if b.line_spacing = LineSpacing.Double
      then 2 * b.lines.length - 1 else b.lines.length) := by
  have hcl : (renderedRows b.line_spacing b.lines).length = b.count_lines := by
    cases hsp : b.line_spacing
    · simp [renderedRows_length_single, Block.count_lines, hsp]
    · simp only [renderedRows_length_double, Block.count_lines, hsp]
      omega
  have hform : b.count_lines = (if b.line_spacing = LineSpacing.Double
      then 2 * b.lines.length - 1 else b.lines.length) := by
    cases hsp : b.line_spacing
    · simp [Block.count_lines, hsp]
    · simp only [Block.count_lines, hsp, if_true]
      omega
  obtain ⟨hcur, hdone⟩ := transfer_preserves_pages s b.footnotes
  have hfold := compose_block_rows b.line_spacing b.lines 0 b.lines.length
    (b.footnotes.foldl (fun s kv => { s with footnotes := tblInsert s.footnotes kv.1 kv.2 }) s)
    (by omega) hrefs (by rw [hcur]; exact hfoot)
    (by rw [hcur, hcl]; exact hroom)
  have hseq : s.compose_block b = (List.enumFrom 0 b.lines).foldl
      (fun s' il => s'.composeLine il.2 il.1 b.lines.length b.line_spacing)
      (b.footnotes.foldl (fun s kv => { s with footnotes := tblInsert s.footnotes kv.1 kv.2 })
        s) := rfl
  rw [hseq, hfold, hcur, hdone]
  exact ⟨rfl, rfl, hcl, hform⟩

/-- Witness for C7: a three-line double-spaced block on a fresh page
occupies exactly `2 * 3 - 1 = 5` rows. -/
theorem block_height_accounting_witness :
    ((Compositor.compose_block ⟨none, [], ⟨1, 54, [], []⟩, [], 1, 2, false, 0⟩
        (Block.mk [⟨0, [], []⟩, ⟨1, [], []⟩, ⟨2, [], []⟩] [] LineSpacing.Double 0 0 none)
      ).curPage.lines
      = [] ++ renderedRows LineSpacing.Double [⟨0, [], []⟩, ⟨1, [], []⟩, ⟨2, [], []⟩]) ∧
    ((Compositor.compose_block ⟨none, [], ⟨1, 54, [], []⟩, [], 1, 2, false, 0⟩
        (Block.mk [⟨0, [], []⟩, ⟨1, [], []⟩, ⟨2, [], []⟩] [] LineSpacing.Double 0 0 none)
      ).donePages = []) ∧
    ((renderedRows LineSpacing.Double [⟨0, [], []⟩, ⟨1, [], []⟩, ⟨2, [], []⟩]).length
      = (Block.mk [⟨0, [], []⟩, ⟨1, [], []⟩, ⟨2, [], []⟩] [] LineSpacing.Double 0 0 none
        ).count_lines) ∧
    ((Block.mk [⟨0, [], []⟩, ⟨1, [], []⟩, ⟨2, [], []⟩] [] LineSpacing.Double 0 0 none
        ).count_lines
      = (if (Block.mk [⟨0, [], []⟩, ⟨1, [], []⟩, ⟨2, [], []⟩] [] LineSpacing.Double 0 0 none
          ).line_spacing = LineSpacing.Double
        then 2 * (Block.mk [⟨0, [], []⟩, ⟨1, [], []⟩, ⟨2, [], []⟩] [] LineSpacing.Double 0 0
          none).lines.length - 1
        else (Block.mk [⟨0, [], []⟩, ⟨1, [], []⟩, ⟨2, [], []⟩] [] LineSpacing.Double 0 0
          none).lines.length)) := by
  have h := block_height_accounting ⟨none, [], ⟨1, 54, [], []⟩, [], 1, 2, false, 0⟩
    (Block.mk [⟨0, [], []⟩, ⟨1, [], []⟩, ⟨2, [], []⟩] [] LineSpacing.Double 0 0 none)
    (by
      intro l hl
      simp only [Block.lines_mk, List.mem_cons, List.mem_singleton,
        List.not_mem_nil, or_false] at hl
      rcases hl with rfl | rfl | rfl <;> rfl)
    rfl (by decide)
  exact ⟨h.1, h.2.1, h.2.2.1, h.2.2.2⟩


-- ======================================================================
-- C4: the compositor neither drops, duplicates nor reorders content
-- ======================================================================

theorem pushFnBlocks_contentFlat (s : Compositor) (bs : List Block) :
    contentFlat (s.pushFnBlocks bs) = contentFlat s := by
  refine foldl_pred_preserve _ (fun s' : Compositor => contentFlat s' = contentFlat s) _ s ?_ rfl
  intro s' jb _ hP
  refine foldl_pred_preserve _ (fun s'' : Compositor => contentFlat s'' = contentFlat s) _ s'
    ?_ hP
  intro s'' kl _ hP'
  split <;> simp [hP']

theorem placeFnLabel_contentFlat (s : Compositor) (lab : String) :
    contentFlat (s.placeFnLabel lab) = contentFlat s := by
  simp only [Compositor.placeFnLabel]
  cases h : tblGet s.footnotes lab
  · rfl
  · rw [pushFnBlocks_contentFlat]
    split <;> simp [contentFlat, pageContent, Compositor.pushFooter]

theorem placeFootnotes_contentFlat (refs : List String) (s : Compositor) :
    contentFlat (s.placeFootnotes refs) = contentFlat s := by
  refine foldl_pred_preserve _ (fun s' : Compositor => contentFlat s' = contentFlat s) _ s
    ?_ rfl
  intro s' lab _ hP
  rw [placeFnLabel_contentFlat, hP]

theorem composeLine_contentFlat (s : Compositor) (l : Line) (i ph : Nat) (sp : LineSpacing) :
    contentFlat (s.composeLine l i ph sp) = contentFlat s ++ [l] := by
  simp only [Compositor.composeLine]
  by_cases h0 : l.note_refs ≠ []
  · rw [if_pos h0]
    by_cases hc1 : lineRemainder1 s.curPage
        (footerHeightLoop s.footnotes l.note_refs 0 0) < 1
    · rw [if_pos hc1]
      have h1 : contentFlat (s.start_a_new_page.placeFootnotes l.note_refs)
          = contentFlat s := by
        rw [placeFootnotes_contentFlat]
        simp
      split <;> split <;> simp [h1]
    · rw [if_neg hc1]
      have h1 : contentFlat (s.placeFootnotes l.note_refs) = contentFlat s :=
        placeFootnotes_contentFlat _ _
      split <;> split <;> simp [h1]
  · rw [if_neg h0]
    split <;> split <;> simp

theorem compose_block_contentFlat (s : Compositor) (b : Block) :
    contentFlat (s.compose_block b) = contentFlat s ++ b.lines := by
  have htrans : contentFlat (b.footnotes.foldl
      (fun s kv => { s with footnotes := tblInsert s.footnotes kv.1 kv.2 }) s)
      = contentFlat s := by
    refine foldl_pred_preserve _ (fun s' : Compositor => contentFlat s' = contentFlat s) _ s
      ?_ rfl
    intro s' kv _ hP
    simpa [contentFlat] using hP
  have hfold : ∀ (pl : List (Nat × Line)) (s0 : Compositor),
      contentFlat (pl.foldl (fun s' il => s'.composeLine il.2 il.1 b.lines.length
        b.line_spacing) s0) = contentFlat s0 ++ pl.map (fun il => il.2) := by
    intro pl
    induction pl with
    | nil => intro s0; simp
    | cons il pl ih =>
      intro s0
      simp only [List.foldl_cons, List.map_cons, ih, composeLine_contentFlat]
      simp
  have hseq : s.compose_block b = (b.lines.enum).foldl
      (fun s' il => s'.composeLine il.2 il.1 b.lines.length b.line_spacing)
      (b.footnotes.foldl (fun s kv => { s with footnotes := tblInsert s.footnotes kv.1 kv.2 })
        s) := rfl
  rw [hseq, hfold, htrans, List.enum_map_snd]

theorem compose_contentFlat (s : Compositor) (b : Block) :
    contentFlat (s.compose b) = contentFlat s ++ b.lines := by
  simp only [Compositor.compose]
  rw [compose_block_contentFlat]
  congr 1
  split <;>
    simp [contentFlat, Compositor.pushContentN, Compositor.start_a_new_page, pageContent,
      List.filterMap_append, filterMap_id_replicate_none]

theorem foldl_compose_contentFlat :
    ∀ (blocks : List Block) (s : Compositor),
      contentFlat (blocks.foldl Compositor.compose s)
        = contentFlat s ++ (blocks.map Block.lines).flatten := by
  intro blocks
  induction blocks with
  | nil => intro s; simp
  | cons b blocks ih =>
    intro s
    simp only [List.foldl_cons, List.map_cons, List.flatten_cons, ih, compose_contentFlat]
    simp

theorem runLoop_no_special_tags :
    ∀ (blocks : List Block) (s : Compositor) (toc : List (Int × Block)),
      (∀ b ∈ blocks, b.tag = none ∨ b.tag = some Tag.Head) →
      Compositor.runLoop s toc blocks = (blocks.foldl Compositor.compose s, toc) := by
  intro blocks
  induction blocks with
  | nil => intro s toc _; rfl
  | cons b blocks ih =>
    intro s toc htags
    rcases htags b (by simp) with htag | htag
    · simp only [Compositor.runLoop, htag, List.foldl_cons]
      exact ih (s.compose b) toc (fun x hx => htags x (by simp [hx]))
    · simp only [Compositor.runLoop, htag, List.foldl_cons]
      exact ih (s.compose b) toc (fun x hx => htags x (by simp [hx]))

/-- C4: for every block list containing only blocks the compositor
composes into the main flow (untagged or head-tagged), the concatenation
of the non-blank content rows over all output pages, in page order,
equals the concatenation of the blocks' lines in input order: no content
line is dropped, duplicated or reordered, even when blocks are split
across pages. -/
theorem compositor_content_conservation (first_page : Int) (has_structure : Bool)
    (blocks : List Block)
    (htags : ∀ b ∈ blocks, b.tag = none ∨ b.tag = some Tag.Head) :
    contentFlat (Compositor.run first_page has_structure blocks)
      = (blocks.map Block.lines).flatten := by
  simp only [Compositor.run]
  rw [runLoop_no_special_tags blocks _ [] htags]
  simp only [List.isEmpty_nil, if_true]
  rw [foldl_compose_contentFlat]
  cases has_structure
  · simp [contentFlat, pageContent]
  · simp [contentFlat, pageContent]

/-- Witness for C4: a two-line double-spaced block followed by a
one-line block with padding conserves exactly the three lines. -/
theorem compositor_content_conservation_witness :
    contentFlat (Compositor.run 1 false
      [Block.mk [⟨0, [], []⟩, ⟨1, [], []⟩] [] LineSpacing.Double 0 2 none,
       Block.mk [⟨2, [], []⟩] [] LineSpacing.Single 3 0 none])
      = ([Block.mk [⟨0, [], []⟩, ⟨1, [], []⟩] [] LineSpacing.Double 0 2 none,
          Block.mk [⟨2, [], []⟩] [] LineSpacing.Single 3 0 none].map Block.lines).flatten :=
  compositor_content_conservation 1 false
    [Block.mk [⟨0, [], []⟩, ⟨1, [], []⟩] [] LineSpacing.Double 0 2 none,
     Block.mk [⟨2, [], []⟩] [] LineSpacing.Single 3 0 none]
    (by
      intro b hb
      simp only [List.mem_cons, List.mem_singleton, List.not_mem_nil, or_false] at hb
      rcases hb with rfl | rfl
      · exact Or.inl rfl
      · exact Or.inl rfl)

end Kosik
